import Mathlib

/-!
Shallow embedding of the numerical-methods library (Gaussian elimination,
Jacobi/Gauss–Seidel iteration, scalar root finders, Newton–Cotes quadrature,
polynomial interpolation, and fixed-step ODE integrators) over exact rational
arithmetic, together with theorems settling the specification claims.

Python floats are modelled as `ℚ`; `numpy` arrays as `List ℚ` (or as index
functions `ℕ → ℚ` where the source only ever accesses entries through
indices); Python `assert` failures and other loud errors as `Option`-valued
results (`none` = the call raises); `print`-and-return-`None` as `none`.
-/

namespace NumericalMethods

/-- Round-half-to-even to an integer, the tie-breaking rule used by
`numpy.around` (banker's rounding). -/
def roundHalfEven (q : ℚ) : ℤ :=
  let f := ⌊q⌋
  if 2 * q < 2 * (f : ℚ) + 1 then f
  else if 2 * (f : ℚ) + 1 < 2 * q then f + 1
  else if f % 2 = 0 then f else f + 1

/-- `numpy.around(q, d)`: round to `d` decimal places, ties to even. -/
def around (d : ℤ) (q : ℚ) : ℚ :=
  (roundHalfEven (q * (10 : ℚ) ^ d) : ℚ) / (10 : ℚ) ^ d

/-- Python `int(q)`: truncation toward zero. -/
def intTowardZero (q : ℚ) : ℤ :=
  if 0 ≤ q then ⌊q⌋ else -⌊-q⌋

/-- The threshold `10**(-decimals)` used by every iterative routine. -/
def threshold (decimals : ℕ) : ℚ := 1 / (10 : ℚ) ^ decimals

/-! ## ordinary_differential_equations.py -/

/-- The `for i in range(n)` loop of `euler_method`: starting from the point
`(x, y)`, perform `n` Euler steps `y += dy(x, y)*h; x += h`, collecting the
appended data points. -/
def eulerSteps (dy : ℚ → ℚ → ℚ) (h : ℚ) : ℕ → ℚ → ℚ → List (ℚ × ℚ)
  | 0, _, _ => []
  | n + 1, x, y =>
    let y2 := y + dy x y * h
    let x2 := x + h
    (x2, y2) :: eulerSteps dy h n x2 y2

/-- `euler_method(dy, domain, y, h)` from `ordinary_differential_equations.py`:
`n = int((x_n - x)/h)` steps of Euler's method, returning `[(x, y)]` followed
by the `n` stepped points. -/
def euler_method (dy : ℚ → ℚ → ℚ) (domain : ℚ × ℚ) (y : ℚ) (h : ℚ) : List (ℚ × ℚ) :=
  let x := domain.1
  let n := (intTowardZero ((domain.2 - x) / h)).toNat
  (x, y) :: eulerSteps dy h n x y

/-- The loop of `second_runge_kutta`: `K1 = h*dy(x,y)`,
`K2 = h*dy(x + h/2, y + K1/2)`, `y += K2; x += h`. -/
def rk2Steps (dy : ℚ → ℚ → ℚ) (h : ℚ) : ℕ → ℚ → ℚ → List (ℚ × ℚ)
  | 0, _, _ => []
  | n + 1, x, y =>
    let K1 := h * dy x y
    let K2 := h * dy (x + h/2) (y + K1/2)
    let y2 := y + K2
    let x2 := x + h
    (x2, y2) :: rk2Steps dy h n x2 y2

/-- `second_runge_kutta(dy, domain, y, h)` from
`ordinary_differential_equations.py`. -/
def second_runge_kutta (dy : ℚ → ℚ → ℚ) (domain : ℚ × ℚ) (y : ℚ) (h : ℚ) :
    List (ℚ × ℚ) :=
  let x := domain.1
  let n := (intTowardZero ((domain.2 - x) / h)).toNat
  (x, y) :: rk2Steps dy h n x y

/-- The loop of `forth_runge_kutta`: the classical fourth-order Runge–Kutta
update `y += (K1 + 2*K2 + 2*K3 + K4)/6; x += h`. -/
def rk4Steps (dy : ℚ → ℚ → ℚ) (h : ℚ) : ℕ → ℚ → ℚ → List (ℚ × ℚ)
  | 0, _, _ => []
  | n + 1, x, y =>
    let K1 := h * dy x y
    let K2 := h * dy (x + h/2) (y + K1/2)
    let K3 := h * dy (x + h/2) (y + K2/2)
    let K4 := h * dy (x + h) (y + K3)
    let y2 := y + (K1 + 2*K2 + 2*K3 + K4)/6
    let x2 := x + h
    (x2, y2) :: rk4Steps dy h n x2 y2

/-- `forth_runge_kutta(dy, domain, y, h)` from
`ordinary_differential_equations.py`. -/
def forth_runge_kutta (dy : ℚ → ℚ → ℚ) (domain : ℚ × ℚ) (y : ℚ) (h : ℚ) :
    List (ℚ × ℚ) :=
  let x := domain.1
  let n := (intTowardZero ((domain.2 - x) / h)).toNat
  (x, y) :: rk4Steps dy h n x y

/-! ## roots_of_equations.py

Each routine's `for iteration in range(1, max_iter)` loop is embedded as a
fuel recursion: the wrapper calls the loop with `iteration = 1` and
`max_iter - 2` units of remaining fuel, so the loop body runs at most
`max_iter - 1` times, faithfully for `max_iter ≥ 2`.  A Python `assert`
failure is modelled as `none`. -/

/-- The fixed-point update `xnew = (a*x**2 + c)/(-b)` of `simple_iteration`. -/
def simpleUpd (a b c x : ℚ) : ℚ := (a * x ^ 2 + c) / (-b)

/-- The loop of `simple_iteration`.  With no fuel left (the final
iteration), break and exhaustion return the same `(iteration, xnew)`, so
the base case needs no convergence test. -/
def simpleIterGo (a b c thr : ℚ) : ℕ → ℕ → ℚ → ℕ × ℚ
  | 0, iter, x => (iter, simpleUpd a b c x)
  | f + 1, iter, x =>
    let xnew := simpleUpd a b c x
    if |xnew - x| < thr then (iter, xnew)
    else simpleIterGo a b c thr f (iter + 1) xnew

/-- `simple_iteration(a, b, c, initial_guess, max_iter, decimals)` from
`roots_of_equations.py` (the diagnostic `print` is dropped). -/
def simple_iteration (a b c x0 : ℚ) (maxIter decimals : ℕ) : ℕ × ℚ :=
  let thr := threshold decimals
  let r := simpleIterGo a b c thr (maxIter - 2) 1 x0
  (r.1, around ((decimals : ℤ) - 1) r.2)

/-- The Newton–Raphson update `xnew = x - f(x)/f'(x)` for
`f(x) = a*x**2 + b*x + c`. -/
def newtonUpd (a b c x : ℚ) : ℚ := x - (a * x ^ 2 + b * x + c) / (2 * a * x + b)

/-- The loop of `newton_raphson` (same final-iteration remark as
`simpleIterGo`). -/
def newtonRaphsonGo (a b c thr : ℚ) : ℕ → ℕ → ℚ → ℕ × ℚ
  | 0, iter, x => (iter, newtonUpd a b c x)
  | f + 1, iter, x =>
    let xnew := newtonUpd a b c x
    if |xnew - x| < thr then (iter, xnew)
    else newtonRaphsonGo a b c thr f (iter + 1) xnew

/-- `newton_raphson(a, b, c, initial_guess, max_iter, decimals)` from
`roots_of_equations.py` (the diagnostic `print` is dropped). -/
def newton_raphson (a b c x0 : ℚ) (maxIter decimals : ℕ) : ℕ × ℚ :=
  let thr := threshold decimals
  let r := newtonRaphsonGo a b c thr (maxIter - 2) 1 x0
  (r.1, around ((decimals : ℤ) - 1) r.2)

/-- One non-breaking iteration of the `bisection_method` loop on the state
`(x1, x2)`: halve the bracket, keeping the half on which `fn` changes sign
according to the `y1*yh < 0` test. -/
def bisectStep (fn : ℚ → ℚ) (s : ℚ × ℚ) : ℚ × ℚ :=
  let (x1, x2) := s
  let xh := (x1 + x2) / 2
  let yh := fn xh
  let y1 := fn x1
  if y1 * yh < 0 then (x1, xh) else (xh, x2)

/-- The loop of `bisection_method`: break when `abs(fn(x1)) < threshold`
(checked before the bracket update), returning the pre-update `x1`; on fuel
exhaustion return the post-update `x1`. -/
def bisectGo (fn : ℚ → ℚ) (thr : ℚ) : ℕ → ℕ → ℚ × ℚ → ℕ × ℚ
  | 0, iter, s =>
    if |fn s.1| < thr then (iter, s.1) else (iter, (bisectStep fn s).1)
  | f + 1, iter, s =>
    if |fn s.1| < thr then (iter, s.1)
    else bisectGo fn thr f (iter + 1) (bisectStep fn s)

/-- `bisection_method(fn, x1, x2, max_iter, decimals)` from
`roots_of_equations.py`; `none` models the `assert y1*y2 < 0` failure. -/
def bisection_method (fn : ℚ → ℚ) (x1 x2 : ℚ) (maxIter decimals : ℕ) :
    Option (ℕ × ℚ) :=
  let thr := threshold decimals
  let y1 := fn x1
  let y2 := fn x2
  if y1 = 0 then some (0, x1)
  else if y2 = 0 then some (0, x2)
  else if y1 * y2 < 0 then
    let r := bisectGo fn thr (maxIter - 2) 1 (x1, x2)
    some (r.1, around ((decimals : ℤ) - 1) r.2)
  else none

/-- The interpolation point `xh = x2 - (x2 - x1)/(y2 - y1) * y2` of
`regula_falsi`, computed from the state `(x1, x2, y1, y2)`. -/
def regulaXh (s : ℚ × ℚ × ℚ × ℚ) : ℚ :=
  let (x1, x2, y1, y2) := s
  x2 - (x2 - x1) / (y2 - y1) * y2

/-- One non-breaking iteration of the `regula_falsi` loop on the state
`(x1, x2, y1, y2)`. -/
def regulaStep (fn : ℚ → ℚ) (s : ℚ × ℚ × ℚ × ℚ) : ℚ × ℚ × ℚ × ℚ :=
  let (x1, x2, y1, y2) := s
  let xh := regulaXh s
  let yh := fn xh
  if y1 * yh < 0 then (x1, xh, y1, yh) else (xh, x2, yh, y2)

/-- The loop of `regula_falsi`: break when `abs(fn(xh)) < threshold`; both on
break and on fuel exhaustion the returned abscissa is the current `xh`. -/
def regulaGo (fn : ℚ → ℚ) (thr : ℚ) : ℕ → ℕ → ℚ × ℚ × ℚ × ℚ → ℕ × ℚ
  | 0, iter, s => (iter, regulaXh s)
  | f + 1, iter, s =>
    if |fn (regulaXh s)| < thr then (iter, regulaXh s)
    else regulaGo fn thr f (iter + 1) (regulaStep fn s)

/-- `regula_falsi(fn, x1, x2, max_iter, decimals)` from
`roots_of_equations.py`; `none` models the `assert y1*y2 < 0` failure. -/
def regula_falsi (fn : ℚ → ℚ) (x1 x2 : ℚ) (maxIter decimals : ℕ) :
    Option (ℕ × ℚ) :=
  let thr := threshold decimals
  let y1 := fn x1
  let y2 := fn x2
  if |y1| < thr then some (0, x1)
  else if |y2| < thr then some (0, x2)
  else if y1 * y2 < 0 then
    let r := regulaGo fn thr (maxIter - 2) 1 (x1, x2, y1, y2)
    some (r.1, around ((decimals : ℤ) - 1) r.2)
  else none

/-- The next secant point `xnew = x2 - (x2 - x1)/(fn(x2) - fn(x1))*fn(x2)`
computed from the state `(x1, x2)`. -/
def secantNew (fn : ℚ → ℚ) (s : ℚ × ℚ) : ℚ :=
  let (x1, x2) := s
  x2 - (x2 - x1) / (fn x2 - fn x1) * fn x2

/-- One non-breaking iteration of the `secant_method` loop:
`x1, x2 = x2, xnew`. -/
def secantStep (fn : ℚ → ℚ) (s : ℚ × ℚ) : ℚ × ℚ :=
  (s.2, secantNew fn s)

/-- The loop of `secant_method`: break when `abs(fn(xnew)) < threshold`; both
on break and on fuel exhaustion the returned abscissa is the current `xnew`. -/
def secantGo (fn : ℚ → ℚ) (thr : ℚ) : ℕ → ℕ → ℚ × ℚ → ℕ × ℚ
  | 0, iter, s => (iter, secantNew fn s)
  | f + 1, iter, s =>
    if |fn (secantNew fn s)| < thr then (iter, secantNew fn s)
    else secantGo fn thr f (iter + 1) (secantStep fn s)

/-- `secant_method(fn, x1, x2, max_iter, decimals)` from
`roots_of_equations.py` (no precondition `assert`). -/
def secant_method (fn : ℚ → ℚ) (x1 x2 : ℚ) (maxIter decimals : ℕ) : ℕ × ℚ :=
  let thr := threshold decimals
  if |fn x1| < thr then (0, x1)
  else if |fn x2| < thr then (0, x2)
  else
    let r := secantGo fn thr (maxIter - 2) 1 (x1, x2)
    (r.1, around ((decimals : ℤ) - 1) r.2)

/-! ## system_of_linear_equations.py (value-level embedding)

Matrices are `List (List ℚ)`, vectors `List ℚ`; indexing is by `getD`, so all
index accesses are faithful whenever they are in range in Python.  As in the
source, the dimension `n` is always `len(b)`. -/

/-- Entry `A[i][j]` of a list-of-rows matrix. -/
def matEntry (A : List (List ℚ)) (i j : ℕ) : ℚ := (A.getD i []).getD j 0

/-- The update formula shared verbatim by `jacobi_method` and
`gauss_seidel_method`:
`xnew[i] = -(sum([A[i, j]*x[j] for j in range(n) if j != i]) - b[i])/A[i, i]`,
with `n = len(b)`. -/
def iterComp (A : List (List ℚ)) (b x : List ℚ) (i : ℕ) : ℚ :=
  -((((List.range b.length).filter (fun j => j ≠ i)).map
      (fun j => matEntry A i j * x.getD j 0)).sum - b.getD i 0) / matEntry A i i

/-- One Jacobi sweep: every component of `xnew` is computed from the same
previous iterate `x`. -/
def jacobiSweep (A : List (List ℚ)) (b x : List ℚ) : List ℚ :=
  (List.range b.length).map (iterComp A b x)

/-- The `for iteration in range(max_iter)` loop of `jacobi_method`, breaking
when `all(abs(xnew - x) < threshold)`. -/
def jacobiGo (A : List (List ℚ)) (b : List ℚ) (thr : ℚ) :
    ℕ → ℕ → List ℚ → ℕ × List ℚ
  | 0, iter, x => (iter, jacobiSweep A b x)
  | f + 1, iter, x =>
    let xnew := jacobiSweep A b x
    if ∀ i ∈ List.range b.length, |xnew.getD i 0 - x.getD i 0| < thr then
      (iter, xnew)
    else jacobiGo A b thr f (iter + 1) xnew

/-- `jacobi_method(A, b, initial_guess, max_iter, decimals)` from
`system_of_linear_equations.py`, faithful for `max_iter ≥ 1`. -/
def jacobi_method (A : List (List ℚ)) (b initial_guess : List ℚ)
    (maxIter decimals : ℕ) : ℕ × List ℚ :=
  let thr := threshold decimals
  let r := jacobiGo A b thr (maxIter - 1) 0 initial_guess
  (r.1, r.2.map (around ((decimals : ℤ) - 1)))

/-- The body of the Gauss–Seidel inner loop at index `i` on the state
`(x, xnew, xdiff)`: `xnew[i] = ...` (reading the in-place updated `x`),
`xdiff = abs(xnew[i] - x[i])` (with the pre-update `x[i]`), then
`x[i] = xnew[i]`. -/
def gsFoldStep (A : List (List ℚ)) (b : List ℚ) (st : List ℚ × List ℚ × ℚ)
    (i : ℕ) : List ℚ × List ℚ × ℚ :=
  let v := iterComp A b st.1 i
  (st.1.set i v, st.2.1.set i v, |v - st.1.getD i 0|)

/-- One Gauss–Seidel sweep from state `x`, threading the in-place updates:
returns the updated `x`, the (re)written `xnew` array and the last computed
`xdiff = abs(xnew[i] - x[i])` (the initial `d0` stands for the unbound
`xdiff` of an empty sweep). -/
def gsSweep (A : List (List ℚ)) (b : List ℚ) (x0 xnew0 : List ℚ) (d0 : ℚ) :
    List ℚ × List ℚ × ℚ :=
  (List.range b.length).foldl (gsFoldStep A b) (x0, xnew0, d0)

/-- The Jacobi stopping test `all(abs(xnew - x) < threshold)`: every
component's absolute change from the previous iterate is below the
threshold. -/
def jacobiStop (A : List (List ℚ)) (b : List ℚ) (thr : ℚ) (x : List ℚ) : Prop :=
  ∀ i ∈ List.range b.length, |(jacobiSweep A b x).getD i 0 - x.getD i 0| < thr

/-- The Gauss–Seidel stopping test `xdiff < threshold`: only the `xdiff`
left by the final pass of the sweep is consulted. -/
def gsStop (A : List (List ℚ)) (b : List ℚ) (thr : ℚ) (x : List ℚ) : Prop :=
  (gsSweep A b x (List.replicate b.length 0) (|thr| + 1)).2.2 < thr

/-- The updated `x` after one Gauss–Seidel sweep (the state carried from one
iteration of the outer loop to the next). -/
def gsNext (A : List (List ℚ)) (b : List ℚ) (thr : ℚ) (x : List ℚ) : List ℚ :=
  (gsSweep A b x (List.replicate b.length 0) (|thr| + 1)).1

/-- The `for iteration in range(max_iter)` loop of `gauss_seidel_method`,
breaking when the last sweep's final `xdiff` is below the threshold.  The
sentinel `|thr| + 1` for an empty sweep never satisfies `xdiff < thr`
(Python would raise `NameError` for `n = 0`). -/
def gsGo (A : List (List ℚ)) (b : List ℚ) (thr : ℚ) :
    ℕ → ℕ → List ℚ → ℕ × List ℚ
  | 0, iter, x => (iter, (gsSweep A b x (List.replicate b.length 0) (|thr| + 1)).2.1)
  | f + 1, iter, x =>
    let sw := gsSweep A b x (List.replicate b.length 0) (|thr| + 1)
    if sw.2.2 < thr then (iter, sw.2.1)
    else gsGo A b thr f (iter + 1) sw.1

/-- `gauss_seidel_method(A, b, initial_guess, max_iter, decimals)` from
`system_of_linear_equations.py`, faithful for `max_iter ≥ 1` and `n ≥ 1`. -/
def gauss_seidel_method (A : List (List ℚ)) (b initial_guess : List ℚ)
    (maxIter decimals : ℕ) : ℕ × List ℚ :=
  let thr := threshold decimals
  let r := gsGo A b thr (maxIter - 1) 0 initial_guess
  (r.1, r.2.map (around ((decimals : ℤ) - 1)))

/-- The adjacent-row swap of `gaussian_elimination`: if `A[k,k] == 0`, swap
rows `k` and `k+1` of `A` (columns `0..n-1`) and entries `k`, `k+1` of `b`. -/
def swapRowsIf (n k : ℕ) (A : ℕ → ℕ → ℚ) (b : ℕ → ℚ) :
    (ℕ → ℕ → ℚ) × (ℕ → ℚ) :=
  if A k k = 0 then
    (fun r c =>
      if c < n then
        if r = k then A (k + 1) c else if r = k + 1 then A k c else A r c
      else A r c,
     fun r => if r = k then b (k + 1) else if r = k + 1 then b k else b r)
  else (A, b)

/-- The inner elimination loop of `gaussian_elimination` at pivot column `k`:
each row `k+1 ≤ row < n` with `A[row,k] ≠ 0` is replaced, on columns
`k..n-1` and in `b`, by `row_k - (A[k,k]/A[row,k]) * row`.  The Python loop
updates the rows one at a time, but each update reads only row `k` (never
modified here) and the row being updated, so the sequential updates equal
this simultaneous one. -/
def elimRows (n k : ℕ) (A : ℕ → ℕ → ℚ) (b : ℕ → ℚ) :
    (ℕ → ℕ → ℚ) × (ℕ → ℚ) :=
  (fun r c =>
    if k + 1 ≤ r ∧ r < n ∧ A r k ≠ 0 ∧ k ≤ c ∧ c < n then
      A k c - A k k / A r k * A r c
    else A r c,
   fun r =>
    if k + 1 ≤ r ∧ r < n ∧ A r k ≠ 0 then b k - A k k / A r k * b r
    else b r)

/-- One iteration of the elimination loop: conditional adjacent swap, then
row elimination. -/
def elimStep (n k : ℕ) (Ab : (ℕ → ℕ → ℚ) × (ℕ → ℚ)) :
    (ℕ → ℕ → ℚ) × (ℕ → ℚ) :=
  let Ab2 := swapRowsIf n k Ab.1 Ab.2
  elimRows n k Ab2.1 Ab2.2

/-- The `for k in range(n-1)` elimination loop of `gaussian_elimination`. -/
def elimLoop (n : ℕ) (Ab : (ℕ → ℕ → ℚ) × (ℕ → ℚ)) :
    (ℕ → ℕ → ℚ) × (ℕ → ℚ) :=
  (List.range (n - 1)).foldl (fun s k => elimStep n k s) Ab

/-- Back substitution
`x[row] = (b[row] - sum([A[row,col]*x[col] for col in range(row+1, n)]))/A[row,row]`
as a fuel recursion; `backSubF A b n (n - row) row` is `x[row]` (each
recursive call has `col > row`, so `n - col < n - row` units of fuel
suffice). -/
def backSubF (A : ℕ → ℕ → ℚ) (b : ℕ → ℚ) (n : ℕ) : ℕ → ℕ → ℚ
  | 0, _ => 0
  | f + 1, row =>
    (b row - (Finset.Ico (row + 1) n).sum fun c => A row c * backSubF A b n f c) /
      A row row

/-- `gaussian_elimination(A, b)` from `system_of_linear_equations.py`:
defensive copies are value-level identities here (the heap embedding below
models the copying itself); `n = len(b)`; elimination then back
substitution. -/
def gaussian_elimination (A : List (List ℚ)) (b : List ℚ) : List ℚ :=
  let n := b.length
  let Ab := elimLoop n (fun i j => matEntry A i j, fun i => b.getD i 0)
  (List.range n).map fun row => backSubF Ab.1 Ab.2 n (n - row) row

/-- The first `k` iterations of the elimination loop. -/
def elimIter (n : ℕ) (Ab : (ℕ → ℕ → ℚ) × (ℕ → ℚ)) (k : ℕ) :
    (ℕ → ℕ → ℚ) × (ℕ → ℚ) :=
  (List.range k).foldl (fun s j => elimStep n j s) Ab

/-- After `k` elimination steps the matrix is zero strictly below the
diagonal in the first `k` columns. -/
def LowZero (A : ℕ → ℕ → ℚ) (n k : ℕ) : Prop :=
  ∀ r c, c < k → c < r → r < n → A r c = 0

/-- `x` solves the leading `n×n` system `A·x = b`. -/
def SolvesFn (A : ℕ → ℕ → ℚ) (b : ℕ → ℚ) (n : ℕ) (x : ℕ → ℚ) : Prop :=
  ∀ r < n, ((Finset.range n).sum fun c => A r c * x c) = b r

/-- Row `r` of the matrix–vector product `A·x` over the leading `n×n` block,
used to state `A·x = b`. -/
def rowMul (A : List (List ℚ)) (x : List ℚ) (n r : ℕ) : ℚ :=
  (Finset.range n).sum fun c => matEntry A r c * x.getD c 0

/-- `B` is a two-sided inverse of `A` on the leading `n×n` block. -/
def IsInverseOf (A B : List (List ℚ)) (n : ℕ) : Prop :=
  ∀ i < n, ∀ j < n,
    ((Finset.range n).sum fun k => matEntry A i k * matEntry B k j) =
      if i = j then 1 else 0

/-- `A` is nonsingular (as an `n×n` matrix): it has a two-sided inverse. -/
def Nonsingular (A : List (List ℚ)) (n : ℕ) : Prop :=
  ∃ B, IsInverseOf A B n ∧ IsInverseOf B A n

/-! ## integration.py -/

/-- `trapezoidal_rule(fn, range_x, n)` from `integration.py`, exactly as
written in the source: note the first summand is `0.5*h*(fn(l + r))` — `fn`
applied to `l + r` — not `0.5*h*(fn(l) + fn(r))`. -/
def trapezoidal_rule (fn : ℚ → ℚ) (range_x : ℚ × ℚ) (n : ℕ) : ℚ :=
  let l := range_x.1
  let r := range_x.2
  let h := (r - l) / n
  1/2 * h * fn (l + r) +
    ((List.range' 1 (n - 1)).map (fun i => h * fn (l + i * h))).sum

/-- Modelled from the claim: the composite trapezoidal Newton–Cotes value
`h/2*(fn(l) + fn(r)) + h*Σ_{i=1}^{n-1} fn(l + i*h)` with `h = (r - l)/n`. -/
def trapezoidalNewtonCotes (fn : ℚ → ℚ) (range_x : ℚ × ℚ) (n : ℕ) : ℚ :=
  let l := range_x.1
  let r := range_x.2
  let h := (r - l) / n
  h/2 * (fn l + fn r) +
    ((List.range' 1 (n - 1)).map (fun i => h * fn (l + i * h))).sum

/-- `simpson_1_3_rule(fn, range_x, n)` from `integration.py`; `none` models
the `assert n%2 == 0` failure.  `range(1, n, 2)` has `n/2` elements and
`range(2, n, 2)` has `(n-1)/2` elements. -/
def simpson_1_3_rule (fn : ℚ → ℚ) (range_x : ℚ × ℚ) (n : ℕ) : Option ℚ :=
  if n % 2 = 0 then
    let l := range_x.1
    let r := range_x.2
    let h := (r - l) / n
    some (h/3 * (fn l + fn r +
      4 * ((List.range' 1 (n / 2) 2).map (fun i => fn (l + i * h))).sum +
      2 * ((List.range' 2 ((n - 1) / 2) 2).map (fun i => fn (l + i * h))).sum))
  else none

/-- `simpson_3_8_rule(fn, range_x, n)` from `integration.py`; `none` models
the `assert n%3 == 0` failure.  `range(1, n, 3)` has `(n+1)/3` elements and
`range(3, n, 3)` has `(n-1)/3` elements. -/
def simpson_3_8_rule (fn : ℚ → ℚ) (range_x : ℚ × ℚ) (n : ℕ) : Option ℚ :=
  if n % 3 = 0 then
    let l := range_x.1
    let r := range_x.2
    let h := (r - l) / n
    some (3 * h / 8 * (fn l + fn r +
      3 * ((List.range' 1 ((n + 1) / 3) 3).map
        (fun i => fn (l + i * h) + fn (l + (i + 1) * h))).sum +
      2 * ((List.range' 3 ((n - 1) / 3) 3).map (fun i => fn (l + i * h))).sum))
  else none

/-! ## interpolation_and_curve_fitting.py -/

/-- The inner helper `prediction(xp, x1, x2, y1, y2)` of
`linear_interpolation`. -/
def prediction (xp x1 x2 y1 y2 : ℚ) : ℚ :=
  y1 + (y2 - y1) / (x2 - x1) * (xp - x1)

/-- The `for i, xi in enumerate(xlist)` loop of `linear_interpolation`:
return a prediction at the first index `i ≠ 0` with `xp < xlist[i]`,
otherwise fall through (Python prints a diagnostic and returns `None`). -/
def liGo (xp : ℚ) (xl yl : List ℚ) : ℕ → List ℚ → Option ℚ
  | _, [] => none
  | i, xi :: rest =>
    if i ≠ 0 ∧ xp < xi then
      some (prediction xp (xl.getD (i - 1) 0) xi (yl.getD (i - 1) 0) (yl.getD i 0))
    else liGo xp xl yl (i + 1) rest

/-- `linear_interpolation(xp, xlist, ylist)` from
`interpolation_and_curve_fitting.py`; `none` models the out-of-range
print-and-return-`None` path. -/
def linear_interpolation (xp : ℚ) (xl yl : List ℚ) : Option ℚ :=
  liGo xp xl yl 0 xl

/-- The cardinal function `l(x, i)` of `lagrange_method`:
`prod((x - xlist[j])/(xlist[i] - xlist[j]))` over `j ≤ n`, `j ≠ i`, with
`n = len(xlist) - 1`. -/
def lagrangeL (xl : List ℚ) (x : ℚ) (i : ℕ) : ℚ :=
  (Finset.range (xl.length - 1 + 1)).prod fun j =>
    if i ≠ j then (x - xl.getD j 0) / (xl.getD i 0 - xl.getD j 0) else 1

/-- `lagrange_method(xp, xlist, ylist)` from
`interpolation_and_curve_fitting.py`: `y(xp) = Σ_i ylist[i]*l(xp, i)`. -/
def lagrange_method (xp : ℚ) (xl yl : List ℚ) : ℚ :=
  (Finset.range (xl.length - 1 + 1)).sum fun i => yl.getD i 0 * lagrangeL xl xp i

/-- The divided-difference table of `newton_method`: `Dy[:,0] = ylist` and
`Dy[i, j+1] = (Dy[i, j] - Dy[j, j])/(xlist[i] - xlist[j])`.  The Python code
fills `Dy[i, j+1]` only for `i ≥ j+1`; every entry this recursion is asked
for below starts from a diagonal entry `Dy[i, i]` and hence stays in that
region. -/
def newtonDD (xl yl : List ℚ) : ℕ → ℕ → ℚ
  | i, 0 => yl.getD i 0
  | i, j + 1 =>
    (newtonDD xl yl i j - newtonDD xl yl j j) / (xl.getD i 0 - xl.getD j 0)

/-- The helper `x_product(xp, degree)` of `newton_method`:
`prod(xp - xlist[j])` over `j < degree`. -/
def x_product (xp : ℚ) (xl : List ℚ) (degree : ℕ) : ℚ :=
  (Finset.range degree).prod fun j => xp - xl.getD j 0

/-- `newton_method(xp, xlist, ylist)` from
`interpolation_and_curve_fitting.py`:
`sum([Dy[i, i]*x_product(xp, i) for i in range(n+1)])`. -/
def newton_method (xp : ℚ) (xl yl : List ℚ) : ℚ :=
  (Finset.range (xl.length - 1 + 1)).sum fun i =>
    newtonDD xl yl i i * x_product xp xl i

/-! ## Heap-level embedding for aliasing behavior

`numpy` arrays are mutable objects; to state which caller-owned arrays a
routine mutates, the three linear-system routines are re-embedded
statement-by-statement over an explicit object store.  1-D and 2-D arrays
live in separate stores addressed by allocation order; `x = initial_guess`
copies a reference, `np.copy` allocates, and subscript assignment writes
through a reference. -/

/-- An object store: `a1` holds the 1-D arrays, `a2` the 2-D arrays, each
addressed by its allocation index. -/
structure Mem where
  a1 : List (List ℚ)
  a2 : List (List (List ℚ))

/-- Contents of the 1-D array with address `r`. -/
def Mem.read1 (m : Mem) (r : ℕ) : List ℚ := m.a1.getD r []

/-- Contents of the 2-D array with address `r`. -/
def Mem.read2 (m : Mem) (r : ℕ) : List (List ℚ) := m.a2.getD r []

/-- `arr[i] = q` through the 1-D reference `r`. -/
def Mem.write1 (m : Mem) (r i : ℕ) (q : ℚ) : Mem :=
  { m with a1 := m.a1.set r ((m.a1.getD r []).set i q) }

/-- `arr[i, j] = q` through the 2-D reference `r`. -/
def Mem.write2 (m : Mem) (r i j : ℕ) (q : ℚ) : Mem :=
  { m with a2 :=
      m.a2.set r ((m.a2.getD r []).set i (((m.a2.getD r []).getD i []).set j q)) }

/-- Allocate a fresh 1-D array, returning its address. -/
def Mem.alloc1 (m : Mem) (v : List ℚ) : Mem × ℕ :=
  ({ m with a1 := m.a1 ++ [v] }, m.a1.length)

/-- Allocate a fresh 2-D array, returning its address. -/
def Mem.alloc2 (m : Mem) (v : List (List ℚ)) : Mem × ℕ :=
  ({ m with a2 := m.a2 ++ [v] }, m.a2.length)

/-- `arr[i]` through a 1-D reference. -/
def Mem.entry1 (m : Mem) (r i : ℕ) : ℚ := (m.read1 r).getD i 0

/-- `arr[i, j]` through a 2-D reference. -/
def Mem.entry2 (m : Mem) (r i j : ℕ) : ℚ := ((m.read2 r).getD i []).getD j 0

/-- One iteration of the `for k in range(n-1)` elimination loop of
`gaussian_elimination`, acting on the copies `rA`, `rb`: the conditional
adjacent-row swap followed by the row-elimination inner loops, each
subscript assignment a heap write. -/
def gaussElimStepMem (rA rb n : ℕ) (m : Mem) (k : ℕ) : Mem :=
  let m1 :=
    if m.entry2 rA k k = 0 then
      let ms := (List.range n).foldl
        (fun mm col =>
          let t1 := mm.entry2 rA k col
          let t2 := mm.entry2 rA (k + 1) col
          (mm.write2 rA k col t2).write2 rA (k + 1) col t1) m
      let s1 := ms.entry1 rb k
      let s2 := ms.entry1 rb (k + 1)
      (ms.write1 rb k s2).write1 rb (k + 1) s1
    else m
  (List.range' (k + 1) (n - (k + 1))).foldl
    (fun mm row =>
      if mm.entry2 rA row k = 0 then mm
      else
        let factor := mm.entry2 rA k k / mm.entry2 rA row k
        let mm2 := mm.write1 rb row (mm.entry1 rb k - factor * mm.entry1 rb row)
        (List.range' k (n - k)).foldl
          (fun m3 col =>
            m3.write2 rA row col (m3.entry2 rA k col - factor * m3.entry2 rA row col))
          mm2)
    m1

/-- The statements of `gaussian_elimination` after the defensive copies:
the elimination loop over the copies `rA2`, `rb2`, then
`x[n-1] = b[n-1]/A[n-1,n-1]` and the `for row in range(n-1, -1, -1)` back
substitution writing into `rx`. -/
def gaussBodyMem (rA2 rb2 rx n : ℕ) (m3 : Mem) : Mem :=
  let m4 := (List.range (n - 1)).foldl (fun m k => gaussElimStepMem rA2 rb2 n m k) m3
  let m5 := m4.write1 rx (n - 1) (m4.entry1 rb2 (n - 1) / m4.entry2 rA2 (n - 1) (n - 1))
  ((List.range n).reverse).foldl
    (fun m row =>
      m.write1 rx row ((m.entry1 rb2 row -
        ((Finset.Ico (row + 1) n).sum fun col => m.entry2 rA2 row col * m.entry1 rx col)) /
        m.entry2 rA2 row row))
    m5

/-- Heap-level `gaussian_elimination(A, b)`: copy both caller arrays
(`np.copy`), allocate `x = np.zeros(n)`, eliminate, back-substitute, and
return the contents of `x` together with the final store. -/
def gaussian_elimination_mem (rA rb : ℕ) (m0 : Mem) : List ℚ × Mem :=
  let rA2 := m0.a2.length
  let m1 := (m0.alloc2 (m0.read2 rA)).1
  let rb2 := m1.a1.length
  let m2 := (m1.alloc1 (m1.read1 rb)).1
  let n := (m2.read1 rb2).length
  let rx := m2.a1.length
  let m3 := (m2.alloc1 (List.replicate n 0)).1
  let m6 := gaussBodyMem rA2 rb2 rx n m3
  (m6.read1 rx, m6)

/-- The shared update formula read through the store: `x` is the 1-D array
at address `xr`. -/
def iterCompMem (rA rb xr : ℕ) (m : Mem) (n i : ℕ) : ℚ :=
  -((((List.range n).filter (fun j => j ≠ i)).map
      (fun j => m.entry2 rA i j * m.entry1 xr j)).sum - m.entry1 rb i) /
    m.entry2 rA i i

/-- The loop of heap-level `jacobi_method`: each sweep writes `xnew` in
place; on a non-breaking iteration `x = np.copy(xnew)` rebinds `x` to a
fresh allocation (the reference `xr` changes, the guess array is never
written). -/
def jacobiGoMem (rA rb rxnew n : ℕ) (thr : ℚ) (d : ℤ) :
    ℕ → ℕ → ℕ → Mem → (ℕ × List ℚ) × Mem
  | 0, iter, xr, m =>
    let m1 := (List.range n).foldl
      (fun mm i => mm.write1 rxnew i (iterCompMem rA rb xr mm n i)) m
    ((iter, (m1.read1 rxnew).map (around d)), m1)
  | f + 1, iter, xr, m =>
    let m1 := (List.range n).foldl
      (fun mm i => mm.write1 rxnew i (iterCompMem rA rb xr mm n i)) m
    if ∀ i ∈ List.range n, |m1.entry1 rxnew i - m1.entry1 xr i| < thr then
      ((iter, (m1.read1 rxnew).map (around d)), m1)
    else
      let p := m1.alloc1 (m1.read1 rxnew)
      jacobiGoMem rA rb rxnew n thr d f (iter + 1) p.2 p.1

/-- Heap-level `jacobi_method(A, b, initial_guess, max_iter, decimals)`:
`x = initial_guess` is a reference copy (`xr = rg`), `xnew = np.empty(n)` a
fresh allocation whose initial contents are dead. -/
def jacobi_method_mem (rA rb rg maxIter decimals : ℕ) (m0 : Mem) :
    (ℕ × List ℚ) × Mem :=
  let n := (m0.read1 rb).length
  let rxnew := m0.a1.length
  let m1 := (m0.alloc1 (List.replicate n 0)).1
  jacobiGoMem rA rb rxnew n (threshold decimals) ((decimals : ℤ) - 1)
    (maxIter - 1) 0 rg m1

/-- The body of the heap-level Gauss–Seidel inner loop at index `i`: write
`xnew[i]`, read off `xdiff = abs(xnew[i] - x[i])`, then write
`x[i] = xnew[i]` through the caller's guess reference `rg`. -/
def gsMemStep (rA rb rxnew rg n : ℕ) (st : Mem × ℚ) (i : ℕ) : Mem × ℚ :=
  let mm := st.1
  let v := iterCompMem rA rb rg mm n i
  let mm2 := mm.write1 rxnew i v
  let xd := |mm2.entry1 rxnew i - mm2.entry1 rg i|
  (mm2.write1 rg i v, xd)

/-- One heap-level Gauss–Seidel sweep. -/
def gsSweepMem (rA rb rxnew rg n : ℕ) (m : Mem) (d0 : ℚ) : Mem × ℚ :=
  (List.range n).foldl (gsMemStep rA rb rxnew rg n) (m, d0)

/-- The loop of heap-level `gauss_seidel_method`, breaking when the final
`xdiff` of a sweep is below the threshold. -/
def gsGoMem (rA rb rxnew rg n : ℕ) (thr : ℚ) (d : ℤ) :
    ℕ → ℕ → Mem → (ℕ × List ℚ) × Mem
  | 0, iter, m =>
    let sw := gsSweepMem rA rb rxnew rg n m (|thr| + 1)
    ((iter, (sw.1.read1 rxnew).map (around d)), sw.1)
  | f + 1, iter, m =>
    let sw := gsSweepMem rA rb rxnew rg n m (|thr| + 1)
    if sw.2 < thr then ((iter, (sw.1.read1 rxnew).map (around d)), sw.1)
    else gsGoMem rA rb rxnew rg n thr d f (iter + 1) sw.1

/-- Heap-level `gauss_seidel_method(A, b, initial_guess, max_iter,
decimals)`: `x = initial_guess` stays an alias of the caller's array for the
whole call. -/
def gauss_seidel_method_mem (rA rb rg maxIter decimals : ℕ) (m0 : Mem) :
    (ℕ × List ℚ) × Mem :=
  let n := (m0.read1 rb).length
  let rxnew := m0.a1.length
  let m1 := (m0.alloc1 (List.replicate n 0)).1
  gsGoMem rA rb rxnew rg n (threshold decimals) ((decimals : ℤ) - 1)
    (maxIter - 1) 0 m1

theorem eulerSteps_length (dy : ℚ → ℚ → ℚ) (h : ℚ) :
    ∀ (n : ℕ) (x y : ℚ), (eulerSteps dy h n x y).length = n := by
  intro n
  induction n with
  | zero => intro x y; rfl
  | succ m ih => intro x y; simp [eulerSteps, ih]

theorem rk2Steps_length (dy : ℚ → ℚ → ℚ) (h : ℚ) :
    ∀ (n : ℕ) (x y : ℚ), (rk2Steps dy h n x y).length = n := by
  intro n
  induction n with
  | zero => intro x y; rfl
  | succ m ih => intro x y; simp [rk2Steps, ih]

theorem rk4Steps_length (dy : ℚ → ℚ → ℚ) (h : ℚ) :
    ∀ (n : ℕ) (x y : ℚ), (rk4Steps dy h n x y).length = n := by
  intro n
  induction n with
  | zero => intro x y; rfl
  | succ m ih => intro x y; simp [rk4Steps, ih]

theorem eulerSteps_fst (dy : ℚ → ℚ → ℚ) (h : ℚ) :
    ∀ (n k : ℕ) (x y : ℚ), k < n →
      ((eulerSteps dy h n x y).getD k (0, 0)).1 = x + (k + 1) * h := by
  intro n
  induction n with
  | zero => intro k x y hk; omega
  | succ m ih =>
    intro k x y hk
    match k with
    | 0 => simp [eulerSteps]
    | k' + 1 =>
      have hk' : k' < m := by omega
      have := ih k' (x + h) (y + dy x y * h) hk'
      simp only [eulerSteps, List.getD_cons_succ] at this ⊢
      rw [this]; push_cast; ring

theorem rk2Steps_fst (dy : ℚ → ℚ → ℚ) (h : ℚ) :
    ∀ (n k : ℕ) (x y : ℚ), k < n →
      ((rk2Steps dy h n x y).getD k (0, 0)).1 = x + (k + 1) * h := by
  intro n
  induction n with
  | zero => intro k x y hk; omega
  | succ m ih =>
    intro k x y hk
    match k with
    | 0 => simp [rk2Steps]
    | k' + 1 =>
      have hk' : k' < m := by omega
      have := ih k' (x + h) (y + h * dy (x + h/2) (y + h * dy x y / 2)) hk'
      simp only [rk2Steps, List.getD_cons_succ] at this ⊢
      rw [this]; push_cast; ring

theorem rk4Steps_fst (dy : ℚ → ℚ → ℚ) (h : ℚ) :
    ∀ (n k : ℕ) (x y : ℚ), k < n →
      ((rk4Steps dy h n x y).getD k (0, 0)).1 = x + (k + 1) * h := by
  intro n
  induction n with
  | zero => intro k x y hk; omega
  | succ m ih =>
    intro k x y hk
    match k with
    | 0 => simp [rk4Steps]
    | k' + 1 =>
      have hk' : k' < m := by omega
      have := ih k' (x + h)
        (y + (h * dy x y + 2 * (h * dy (x + h/2) (y + h * dy x y / 2)) +
          2 * (h * dy (x + h/2) (y + h * dy (x + h/2) (y + h * dy x y / 2) / 2)) +
          h * dy (x + h)
            (y + h * dy (x + h/2) (y + h * dy (x + h/2) (y + h * dy x y / 2) / 2))) / 6)
        hk'
      simp only [rk4Steps, List.getD_cons_succ] at this ⊢
      rw [this]; push_cast; ring

/-- Claim C9: for every right-hand side `dy`, domain `[a, b]`, initial value
`y0` and step `h > 0`, `euler_method` (and likewise `second_runge_kutta` and
`forth_runge_kutta`) returns exactly `int((b - a)/h) + 1` pairs, the first
being `(a, y0)` and the `k`-th `x`-coordinate being `a + k*h`; the sequence is
not clipped to the exact upper bound `b`. -/
theorem ode_full_sequence (dy : ℚ → ℚ → ℚ) (a b y0 h : ℚ)
    (hh : 0 < h) (hab : a ≤ b) (N : ℕ)
    (hN : N = (intTowardZero ((b - a) / h)).toNat) :
    ((euler_method dy (a, b) y0 h).length = N + 1 ∧
      (euler_method dy (a, b) y0 h).getD 0 (0, 0) = (a, y0) ∧
      ∀ k ≤ N, ((euler_method dy (a, b) y0 h).getD k (0, 0)).1 = a + k * h) ∧
    ((second_runge_kutta dy (a, b) y0 h).length = N + 1 ∧
      (second_runge_kutta dy (a, b) y0 h).getD 0 (0, 0) = (a, y0) ∧
      ∀ k ≤ N, ((second_runge_kutta dy (a, b) y0 h).getD k (0, 0)).1 = a + k * h) ∧
    ((forth_runge_kutta dy (a, b) y0 h).length = N + 1 ∧
      (forth_runge_kutta dy (a, b) y0 h).getD 0 (0, 0) = (a, y0) ∧
      ∀ k ≤ N, ((forth_runge_kutta dy (a, b) y0 h).getD k (0, 0)).1 = a + k * h) := by
  refine ⟨⟨?_, rfl, ?_⟩, ⟨?_, rfl, ?_⟩, ⟨?_, rfl, ?_⟩⟩
  · simp [hN, euler_method, eulerSteps_length]
  · intro k hk
    match k with
    | 0 => simp [euler_method]
    | k' + 1 =>
      have : ((eulerSteps dy h N a y0).getD k' (0, 0)).1 = a + (k' + 1) * h :=
        eulerSteps_fst dy h N k' a y0 (by omega)
      rw [hN] at this
      simp only [euler_method, List.getD_cons_succ]
      rw [this]; push_cast; ring
  · simp [hN, second_runge_kutta, rk2Steps_length]
  · intro k hk
    match k with
    | 0 => simp [second_runge_kutta]
    | k' + 1 =>
      have : ((rk2Steps dy h N a y0).getD k' (0, 0)).1 = a + (k' + 1) * h :=
        rk2Steps_fst dy h N k' a y0 (by omega)
      rw [hN] at this
      simp only [second_runge_kutta, List.getD_cons_succ]
      rw [this]; push_cast; ring
  · simp [hN, forth_runge_kutta, rk4Steps_length]
  · intro k hk
    match k with
    | 0 => simp [forth_runge_kutta]
    | k' + 1 =>
      have : ((rk4Steps dy h N a y0).getD k' (0, 0)).1 = a + (k' + 1) * h :=
        rk4Steps_fst dy h N k' a y0 (by omega)
      rw [hN] at this
      simp only [forth_runge_kutta, List.getD_cons_succ]
      rw [this]; push_cast; ring

/-- Witness for C9 on a domain whose width is not an integer multiple of the
step: `a = 0`, `b = 1`, `h = 2/3` gives `int(3/2) + 1 = 2` sample points. -/
theorem ode_full_sequence_witness :
    (0 : ℚ) < 2/3 ∧ (0 : ℚ) ≤ 1 ∧
      (1 : ℕ) = (intTowardZero ((1 - 0) / (2/3))).toNat ∧
      (euler_method (fun _ y => y) (0, 1) 1 (2/3)).length = 2 := by
  refine ⟨by norm_num, by norm_num, by norm_num [intTowardZero], ?_⟩
  have h := (ode_full_sequence (fun _ y => y) 0 1 1 (2/3) (by norm_num)
    (by norm_num) 1 (by norm_num [intTowardZero])).1.1
  norm_num at h
  exact h

set_option maxHeartbeats 2000000 in
set_option maxRecDepth 4000 in
/-- Claim C10: on `dy(x,y) = x*y` over `[0, 2]` with `y0 = 1`, `h = 0.5`,
`euler_method` returns exactly the docstring sequence, and
`forth_runge_kutta` reproduces its docstring reference sequence after rounding
each coordinate to 3 decimal places. -/
theorem ode_reference_sequences :
    euler_method (fun x y => x * y) (0, 2) 1 (1/2) =
      [(0, 1), (1/2, 1), (1, 5/4), (3/2, 15/8), (2, 105/32)] ∧
    (forth_runge_kutta (fun x y => x * y) (0, 2) 1 (1/2)).map
        (fun p => (around 3 p.1, around 3 p.2)) =
      [(0, 1), (1/2, 1133/1000), (1, 1649/1000), (3/2, 3078/1000),
        (2, 7367/1000)] := by
  constructor
  · norm_num [euler_method, intTowardZero, eulerSteps]
  · norm_num [forth_runge_kutta, intTowardZero, rk4Steps, around, roundHalfEven]

/-- Claim C5 (code bug): the first summand of `trapezoidal_rule` is
`0.5*h*fn(l + r)` — `fn` evaluated at the single point `l + r` — not the
trapezoidal endpoint combination `h/2*(fn(l) + fn(r))`.  At the constant
integrand `fn = 1` on `[0, 1]` with `n = 2` the code returns `3/4` while the
composite trapezoidal Newton–Cotes formula gives `1`. -/
theorem trapezoidal_rule_endpoint_bug :
    trapezoidal_rule (fun _ => 1) (0, 1) 2 = 3/4 ∧
    trapezoidalNewtonCotes (fun _ => 1) (0, 1) 2 = 1 ∧
    trapezoidal_rule (fun _ => 1) (0, 1) 2 ≠
      trapezoidalNewtonCotes (fun _ => 1) (0, 1) 2 := by
  refine ⟨?_, ?_, ?_⟩ <;>
    norm_num [trapezoidal_rule, trapezoidalNewtonCotes, List.range']

/-- Counterexample to claim C7: a query strictly below the sampled range
does not return `none` — `linear_interpolation` extrapolates from the first
interval.  On the docstring data, `xp = -10` (below the range `[0, 100]`)
returns the numeric value `14.7`. -/
theorem linear_interpolation_below_range_numeric :
    ((-10 : ℚ) < ([0, 20, 40, 60, 80, 100] : List ℚ).getD 0 0) ∧
    linear_interpolation (-10) [0, 20, 40, 60, 80, 100]
      [26, 243/5, 308/5, 356/5, 374/5, 376/5] = some (147/10) := by
  constructor
  · norm_num
  · norm_num [linear_interpolation, liGo, prediction]

/-- The scan of `linear_interpolation` falls through to the out-of-range
path iff no element of the remaining list at overall index `≥ 1` exceeds
`xp`. -/
theorem liGo_none_iff (xp : ℚ) (xl yl : List ℚ) :
    ∀ (rest : List ℚ) (i : ℕ),
      liGo xp xl yl i rest = none ↔
        ∀ p, p < rest.length → i + p ≠ 0 → rest.getD p 0 ≤ xp := by
  intro rest
  induction rest with
  | nil => intro i; simp [liGo]
  | cons xi tl ih =>
    intro i
    by_cases hguard : i ≠ 0 ∧ xp < xi
    · simp only [liGo, if_pos hguard]
      constructor
      · intro h; exact absurd h (by simp)
      · intro hall
        have := hall 0 (by simp) (by simpa using hguard.1)
        exact absurd hguard.2 (not_lt.mpr (by simpa using this))
    · simp only [liGo, if_neg hguard]
      rw [ih (i + 1)]
      constructor
      · intro hall p hp hpi
        match p with
        | 0 =>
          rcases Decidable.em (i = 0) with h0 | h0
          · exact absurd hpi (by omega)
          · have : ¬ xp < xi := fun hlt => hguard ⟨h0, hlt⟩
            simpa using not_lt.mp this
        | q + 1 =>
          have := hall q (by simpa using hp) (by omega)
          simpa using this
      · intro hall p hp _
        have := hall (p + 1) (by simpa using hp) (by omega)
        simpa using this

/-- Claim C7 as amended: `linear_interpolation` returns no numeric result
(`none`, modelling the print-and-return-`None` notification path) exactly
when every sample of `xlist` at index 1 or higher is at most `xp` — the
first sample is never compared, so for an ascending `xlist` this means
queries at or above the last sample (in particular above the range), and
any `xlist` with fewer than two samples yields `none` for every query;
whenever `xlist` has at least two samples and `xp` lies strictly below the
second sample — in particular strictly below the whole range of an
ascending `xlist` — the routine instead returns the numeric extrapolation
`prediction(xp, xlist[0], xlist[1], ylist[0], ylist[1])` computed from the
first interval. -/
theorem linear_interpolation_none_iff (xp : ℚ) (xl yl : List ℚ) :
    (linear_interpolation xp xl yl = none ↔
      ∀ i, 1 ≤ i → i < xl.length → xl.getD i 0 ≤ xp) ∧
    (2 ≤ xl.length → xp < xl.getD 1 0 →
      linear_interpolation xp xl yl =
        some (prediction xp (xl.getD 0 0) (xl.getD 1 0)
          (yl.getD 0 0) (yl.getD 1 0))) := by
  constructor
  · rw [linear_interpolation, liGo_none_iff]
    constructor
    · intro h i h1 hi
      exact h i hi (by omega)
    · intro h p hp hp0
      exact h p (by omega) hp
  · intro h2 hlt
    obtain ⟨x0, x1, rest, rfl⟩ : ∃ x0 x1 rest, xl = x0 :: x1 :: rest := by
      match xl, h2 with
      | x0 :: x1 :: rest, _ => exact ⟨x0, x1, rest, rfl⟩
    have hx1 : xp < x1 := by simpa using hlt
    simp only [linear_interpolation, liGo]
    rw [if_neg (by simp), if_pos ⟨one_ne_zero, hx1⟩]
    simp [List.getD]

/-- Witness for the amended C7 on the docstring data: `xp = -10` (strictly
below the second sample) returns the first-interval extrapolation, and
`xp = 150` (at or above every later sample) returns `none`. -/
theorem linear_interpolation_none_iff_witness :
    (2 ≤ ([0, 20, 40, 60, 80, 100] : List ℚ).length) ∧
    ((-10 : ℚ) < ([0, 20, 40, 60, 80, 100] : List ℚ).getD 1 0) ∧
    linear_interpolation (-10) [0, 20, 40, 60, 80, 100]
      [26, 243/5, 308/5, 356/5, 374/5, 376/5] =
      some (prediction (-10) 0 20 26 (243/5)) ∧
    linear_interpolation 150 [0, 20, 40, 60, 80, 100]
      [26, 243/5, 308/5, 356/5, 374/5, 376/5] = none := by
  refine ⟨by norm_num, by norm_num, ?_, ?_⟩
  · have h := (linear_interpolation_none_iff (-10) [0, 20, 40, 60, 80, 100]
      [26, 243/5, 308/5, 356/5, 374/5, 376/5]).2 (by norm_num)
      (by norm_num [List.getD])
    simpa [List.getD] using h
  · refine (linear_interpolation_none_iff 150 [0, 20, 40, 60, 80, 100]
      [26, 243/5, 308/5, 356/5, 374/5, 376/5]).1.mpr ?_
    intro i h1 hi
    norm_num at hi
    interval_cases i <;> norm_num [List.getD]

/-- Counterexample to claim C6: endpoints whose function values do not
satisfy `fn(x1)*fn(x2) < 0` need not fail the assertion — if an endpoint is
already a root, `bisection_method` returns `(0, x1)` instead of failing. -/
theorem bisection_zero_endpoint_returns_value :
    ¬((fun x : ℚ => x) 0 * (fun x : ℚ => x) 1 < 0) ∧
    bisection_method (fun x : ℚ => x) 0 1 100 6 = some (0, 0) := by
  constructor
  · norm_num
  · norm_num [bisection_method]

/-- Claim C6 as amended: `simpson_1_3_rule` with odd `n` and
`simpson_3_8_rule` with `n` not a multiple of 3 fail their asserts;
`bisection_method` (resp. `regula_falsi`) fails its assert when the endpoint
values have non-negative product and neither endpoint is already an exact
root (resp. a root within threshold) — otherwise the root endpoint is
returned with iteration count 0; and the linear-algebra routines perform no
array-length check at all: with a 1-entry `b` against a 2×2 `A`,
`gaussian_elimination` silently solves the leading 1×1 block. -/
theorem precondition_failures :
    (∀ (fn : ℚ → ℚ) (rx : ℚ × ℚ) (n : ℕ), n % 2 = 1 →
      simpson_1_3_rule fn rx n = none) ∧
    (∀ (fn : ℚ → ℚ) (rx : ℚ × ℚ) (n : ℕ), ¬(n % 3 = 0) →
      simpson_3_8_rule fn rx n = none) ∧
    (∀ (fn : ℚ → ℚ) (x1 x2 : ℚ) (mi d : ℕ), fn x1 ≠ 0 → fn x2 ≠ 0 →
      ¬(fn x1 * fn x2 < 0) → bisection_method fn x1 x2 mi d = none) ∧
    (∀ (fn : ℚ → ℚ) (x1 x2 : ℚ) (mi d : ℕ),
      ¬(|fn x1| < threshold d) → ¬(|fn x2| < threshold d) →
      ¬(fn x1 * fn x2 < 0) → regula_falsi fn x1 x2 mi d = none) ∧
    gaussian_elimination [[2, 0], [0, 2]] [2] = [1] := by
  refine ⟨?_, ?_, ?_, ?_, ?_⟩
  · intro fn rx n hodd
    have : ¬(n % 2 = 0) := by omega
    simp [simpson_1_3_rule, this]
  · intro fn rx n h3
    simp [simpson_3_8_rule, h3]
  · intro fn x1 x2 mi d h1 h2 hnn
    simp [bisection_method, h1, h2, hnn]
  · intro fn x1 x2 mi d h1 h2 hnn
    simp [regula_falsi, h1, h2, hnn]
  · norm_num [gaussian_elimination, elimLoop, backSubF, matEntry,
      List.range_succ, Finset.Ico_self]

/-- Witness for the amended C6: each precondition-violating call fails
(returns `none`), and the mismatched-length call returns a value. -/
theorem precondition_failures_witness :
    simpson_1_3_rule (fun x => x) (0, 1) 3 = none ∧
    simpson_3_8_rule (fun x => x) (0, 1) 4 = none ∧
    bisection_method (fun x : ℚ => x) 1 2 100 6 = none ∧
    regula_falsi (fun x : ℚ => x) 1 2 100 6 = none ∧
    gaussian_elimination [[2, 0], [0, 2]] [2] = [1] :=
  ⟨precondition_failures.1 _ _ 3 (by norm_num),
   precondition_failures.2.1 _ _ 4 (by norm_num),
   precondition_failures.2.2.1 _ 1 2 100 6 (by norm_num) (by norm_num)
     (by norm_num),
   precondition_failures.2.2.2.1 _ 1 2 100 6
     (by norm_num [threshold]) (by norm_num [threshold]) (by norm_num),
   precondition_failures.2.2.2.2⟩

theorem simpleIterGo_exhaust (a b c thr : ℚ) :
    ∀ (fuel iter : ℕ) (x : ℚ),
      (∀ k ≤ fuel,
        ¬(|(simpleUpd a b c)^[k + 1] x - (simpleUpd a b c)^[k] x| < thr)) →
      simpleIterGo a b c thr fuel iter x =
        (iter + fuel, (simpleUpd a b c)^[fuel + 1] x) := by
  intro fuel
  induction fuel with
  | zero =>
    intro iter x _
    simp [simpleIterGo]
  | succ f ih =>
    intro iter x h
    have h0 := h 0 (Nat.zero_le _)
    simp only [zero_add, Function.iterate_one, Function.iterate_zero, id_eq] at h0
    have hrec := ih (iter + 1) (simpleUpd a b c x) (fun k hk => by
      simpa only [← Function.iterate_succ_apply] using h (k + 1) (by omega))
    simp only [simpleIterGo, if_neg h0]
    rw [hrec, ← Function.iterate_succ_apply]
    have e : iter + 1 + f = iter + (f + 1) := by omega
    rw [e]

theorem newtonRaphsonGo_exhaust (a b c thr : ℚ) :
    ∀ (fuel iter : ℕ) (x : ℚ),
      (∀ k ≤ fuel,
        ¬(|(newtonUpd a b c)^[k + 1] x - (newtonUpd a b c)^[k] x| < thr)) →
      newtonRaphsonGo a b c thr fuel iter x =
        (iter + fuel, (newtonUpd a b c)^[fuel + 1] x) := by
  intro fuel
  induction fuel with
  | zero =>
    intro iter x _
    simp [newtonRaphsonGo]
  | succ f ih =>
    intro iter x h
    have h0 := h 0 (Nat.zero_le _)
    simp only [zero_add, Function.iterate_one, Function.iterate_zero, id_eq] at h0
    have hrec := ih (iter + 1) (newtonUpd a b c x) (fun k hk => by
      simpa only [← Function.iterate_succ_apply] using h (k + 1) (by omega))
    simp only [newtonRaphsonGo, if_neg h0]
    rw [hrec, ← Function.iterate_succ_apply]
    have e : iter + 1 + f = iter + (f + 1) := by omega
    rw [e]

theorem bisectGo_exhaust (fn : ℚ → ℚ) (thr : ℚ) :
    ∀ (fuel iter : ℕ) (s : ℚ × ℚ),
      (∀ k ≤ fuel, ¬(|fn ((bisectStep fn)^[k] s).1| < thr)) →
      bisectGo fn thr fuel iter s =
        (iter + fuel, ((bisectStep fn)^[fuel + 1] s).1) := by
  intro fuel
  induction fuel with
  | zero =>
    intro iter s h
    have h0 := h 0 (Nat.zero_le _)
    simp only [Function.iterate_zero, id_eq] at h0
    simp [bisectGo, if_neg h0]
  | succ f ih =>
    intro iter s h
    have h0 := h 0 (Nat.zero_le _)
    simp only [Function.iterate_zero, id_eq] at h0
    have hrec := ih (iter + 1) (bisectStep fn s) (fun k hk => by
      simpa only [← Function.iterate_succ_apply] using h (k + 1) (by omega))
    simp only [bisectGo, if_neg h0]
    rw [hrec, ← Function.iterate_succ_apply]
    have e : iter + 1 + f = iter + (f + 1) := by omega
    rw [e]

theorem regulaGo_exhaust (fn : ℚ → ℚ) (thr : ℚ) :
    ∀ (fuel iter : ℕ) (s : ℚ × ℚ × ℚ × ℚ),
      (∀ k ≤ fuel, ¬(|fn (regulaXh ((regulaStep fn)^[k] s))| < thr)) →
      regulaGo fn thr fuel iter s =
        (iter + fuel, regulaXh ((regulaStep fn)^[fuel] s)) := by
  intro fuel
  induction fuel with
  | zero =>
    intro iter s _
    simp [regulaGo]
  | succ f ih =>
    intro iter s h
    have h0 := h 0 (Nat.zero_le _)
    simp only [Function.iterate_zero, id_eq] at h0
    have hrec := ih (iter + 1) (regulaStep fn s) (fun k hk => by
      simpa only [← Function.iterate_succ_apply] using h (k + 1) (by omega))
    simp only [regulaGo, if_neg h0]
    rw [hrec, ← Function.iterate_succ_apply]
    have e : iter + 1 + f = iter + (f + 1) := by omega
    rw [e]

theorem secantGo_exhaust (fn : ℚ → ℚ) (thr : ℚ) :
    ∀ (fuel iter : ℕ) (s : ℚ × ℚ),
      (∀ k ≤ fuel, ¬(|fn (secantNew fn ((secantStep fn)^[k] s))| < thr)) →
      secantGo fn thr fuel iter s =
        (iter + fuel, secantNew fn ((secantStep fn)^[fuel] s)) := by
  intro fuel
  induction fuel with
  | zero =>
    intro iter s _
    simp [secantGo]
  | succ f ih =>
    intro iter s h
    have h0 := h 0 (Nat.zero_le _)
    simp only [Function.iterate_zero, id_eq] at h0
    have hrec := ih (iter + 1) (secantStep fn s) (fun k hk => by
      simpa only [← Function.iterate_succ_apply] using h (k + 1) (by omega))
    simp only [secantGo, if_neg h0]
    rw [hrec, ← Function.iterate_succ_apply]
    have e : iter + 1 + f = iter + (f + 1) := by omega
    rw [e]

theorem jacobiGo_exhaust (A : List (List ℚ)) (b : List ℚ) (thr : ℚ) :
    ∀ (fuel iter : ℕ) (x : List ℚ),
      (∀ k ≤ fuel, ¬(∀ i ∈ List.range b.length,
        |((jacobiSweep A b)^[k + 1] x).getD i 0 -
          ((jacobiSweep A b)^[k] x).getD i 0| < thr)) →
      jacobiGo A b thr fuel iter x =
        (iter + fuel, (jacobiSweep A b)^[fuel + 1] x) := by
  intro fuel
  induction fuel with
  | zero =>
    intro iter x _
    simp [jacobiGo]
  | succ f ih =>
    intro iter x h
    have h0 := h 0 (Nat.zero_le _)
    simp only [zero_add, Function.iterate_one, Function.iterate_zero, id_eq] at h0
    have hrec := ih (iter + 1) (jacobiSweep A b x) (fun k hk => by
      simpa only [← Function.iterate_succ_apply] using h (k + 1) (by omega))
    simp only [jacobiGo, if_neg h0]
    rw [hrec, ← Function.iterate_succ_apply]
    have e : iter + 1 + f = iter + (f + 1) := by omega
    rw [e]

theorem gsGo_exhaust (A : List (List ℚ)) (b : List ℚ) (thr : ℚ) :
    ∀ (fuel iter : ℕ) (x : List ℚ),
      (∀ k ≤ fuel, ¬((gsSweep A b ((gsNext A b thr)^[k] x)
        (List.replicate b.length 0) (|thr| + 1)).2.2 < thr)) →
      gsGo A b thr fuel iter x =
        (iter + fuel, (gsSweep A b ((gsNext A b thr)^[fuel] x)
          (List.replicate b.length 0) (|thr| + 1)).2.1) := by
  intro fuel
  induction fuel with
  | zero =>
    intro iter x _
    simp [gsGo]
  | succ f ih =>
    intro iter x h
    have h0 := h 0 (Nat.zero_le _)
    simp only [Function.iterate_zero, id_eq] at h0
    have hrec := ih (iter + 1) (gsNext A b thr x) (fun k hk => by
      simpa only [← Function.iterate_succ_apply] using h (k + 1) (by omega))
    simp only [gsGo, if_neg h0]
    rw [show (gsSweep A b x (List.replicate b.length 0) (|thr| + 1)).1 =
      gsNext A b thr x from rfl]
    rw [hrec, ← Function.iterate_succ_apply]
    have e : iter + 1 + f = iter + (f + 1) := by omega
    rw [e]

/-- Claim C3: for every iterative routine, failing to reach the convergence
threshold within the iteration cap is not an error: the routine returns its
last iterate (rounded to `decimals - 1` places) together with an iteration
count equal to `max_iter - 1`.  The nonzero-denominator hypotheses mark
where Python would raise `ZeroDivisionError` instead of iterating. -/
theorem nonconvergence_returns_count :
    (∀ (A : List (List ℚ)) (b g : List ℚ) (mi d : ℕ), 1 ≤ mi →
      (∀ t < mi, ¬(∀ i ∈ List.range b.length,
        |((jacobiSweep A b)^[t + 1] g).getD i 0 -
          ((jacobiSweep A b)^[t] g).getD i 0| < threshold d)) →
      jacobi_method A b g mi d =
        (mi - 1, ((jacobiSweep A b)^[mi] g).map (around ((d : ℤ) - 1)))) ∧
    (∀ (A : List (List ℚ)) (b g : List ℚ) (mi d : ℕ), 1 ≤ mi →
      (∀ t < mi, ¬((gsSweep A b ((gsNext A b (threshold d))^[t] g)
          (List.replicate b.length 0) (|threshold d| + 1)).2.2 < threshold d)) →
      gauss_seidel_method A b g mi d =
        (mi - 1, ((gsSweep A b ((gsNext A b (threshold d))^[mi - 1] g)
          (List.replicate b.length 0) (|threshold d| + 1)).2.1).map
            (around ((d : ℤ) - 1)))) ∧
    (∀ (a b c x0 : ℚ) (mi d : ℕ), 2 ≤ mi → b ≠ 0 →
      (∀ k ≤ mi - 2,
        ¬(|(simpleUpd a b c)^[k + 1] x0 - (simpleUpd a b c)^[k] x0| < threshold d)) →
      simple_iteration a b c x0 mi d =
        (mi - 1, around ((d : ℤ) - 1) ((simpleUpd a b c)^[mi - 1] x0))) ∧
    (∀ (a b c x0 : ℚ) (mi d : ℕ), 2 ≤ mi →
      (∀ k ≤ mi - 2, 2 * a * (newtonUpd a b c)^[k] x0 + b ≠ 0) →
      (∀ k ≤ mi - 2,
        ¬(|(newtonUpd a b c)^[k + 1] x0 - (newtonUpd a b c)^[k] x0| < threshold d)) →
      newton_raphson a b c x0 mi d =
        (mi - 1, around ((d : ℤ) - 1) ((newtonUpd a b c)^[mi - 1] x0))) ∧
    (∀ (fn : ℚ → ℚ) (x1 x2 : ℚ) (mi d : ℕ), 2 ≤ mi →
      fn x1 ≠ 0 → fn x2 ≠ 0 → fn x1 * fn x2 < 0 →
      (∀ k ≤ mi - 2, ¬(|fn ((bisectStep fn)^[k] (x1, x2)).1| < threshold d)) →
      bisection_method fn x1 x2 mi d =
        some (mi - 1, around ((d : ℤ) - 1) ((bisectStep fn)^[mi - 1] (x1, x2)).1)) ∧
    (∀ (fn : ℚ → ℚ) (x1 x2 : ℚ) (mi d : ℕ), 2 ≤ mi →
      ¬(|fn x1| < threshold d) → ¬(|fn x2| < threshold d) → fn x1 * fn x2 < 0 →
      (∀ k ≤ mi - 2, ((regulaStep fn)^[k] (x1, x2, fn x1, fn x2)).2.2.2 -
        ((regulaStep fn)^[k] (x1, x2, fn x1, fn x2)).2.2.1 ≠ 0) →
      (∀ k ≤ mi - 2,
        ¬(|fn (regulaXh ((regulaStep fn)^[k] (x1, x2, fn x1, fn x2)))| < threshold d)) →
      regula_falsi fn x1 x2 mi d =
        some (mi - 1, around ((d : ℤ) - 1)
          (regulaXh ((regulaStep fn)^[mi - 2] (x1, x2, fn x1, fn x2))))) ∧
    (∀ (fn : ℚ → ℚ) (x1 x2 : ℚ) (mi d : ℕ), 2 ≤ mi →
      ¬(|fn x1| < threshold d) → ¬(|fn x2| < threshold d) →
      (∀ k ≤ mi - 2, fn ((secantStep fn)^[k] (x1, x2)).2 -
        fn ((secantStep fn)^[k] (x1, x2)).1 ≠ 0) →
      (∀ k ≤ mi - 2, ¬(|fn (secantNew fn ((secantStep fn)^[k] (x1, x2)))| < threshold d)) →
      secant_method fn x1 x2 mi d =
        (mi - 1, around ((d : ℤ) - 1) (secantNew fn ((secantStep fn)^[mi - 2] (x1, x2))))) := by
  refine ⟨?_, ?_, ?_, ?_, ?_, ?_, ?_⟩
  · intro A b g mi d hmi h
    have hrec := jacobiGo_exhaust A b (threshold d) (mi - 1) 0 g
      (fun k hk => h k (by omega))
    simp only [jacobi_method, hrec]
    have e1 : 0 + (mi - 1) = mi - 1 := by omega
    have e2 : mi - 1 + 1 = mi := by omega
    rw [e1, e2]
  · intro A b g mi d hmi h
    have hrec := gsGo_exhaust A b (threshold d) (mi - 1) 0 g
      (fun k hk => h k (by omega))
    simp only [gauss_seidel_method, hrec]
    have e1 : 0 + (mi - 1) = mi - 1 := by omega
    rw [e1]
  · intro a b c x0 mi d hmi hb h
    have hrec := simpleIterGo_exhaust a b c (threshold d) (mi - 2) 1 x0
      (fun k hk => h k (by omega))
    simp only [simple_iteration, hrec]
    have e1 : 1 + (mi - 2) = mi - 1 := by omega
    have e2 : mi - 2 + 1 = mi - 1 := by omega
    rw [e1, e2]
  · intro a b c x0 mi d hmi hden h
    have hrec := newtonRaphsonGo_exhaust a b c (threshold d) (mi - 2) 1 x0
      (fun k hk => h k (by omega))
    simp only [newton_raphson, hrec]
    have e1 : 1 + (mi - 2) = mi - 1 := by omega
    have e2 : mi - 2 + 1 = mi - 1 := by omega
    rw [e1, e2]
  · intro fn x1 x2 mi d hmi h1 h2 hsign h
    have hrec := bisectGo_exhaust fn (threshold d) (mi - 2) 1 (x1, x2)
      (fun k hk => h k (by omega))
    have hns : ¬(fn x1 * fn x2 < 0) → False := fun hc => hc hsign
    simp only [bisection_method, if_neg h1, if_neg h2, if_pos hsign, hrec]
    have e1 : 1 + (mi - 2) = mi - 1 := by omega
    have e2 : mi - 2 + 1 = mi - 1 := by omega
    rw [e1, e2]
  · intro fn x1 x2 mi d hmi h1 h2 hsign hdiv h
    have hrec := regulaGo_exhaust fn (threshold d) (mi - 2) 1 (x1, x2, fn x1, fn x2)
      (fun k hk => h k (by omega))
    simp only [regula_falsi, if_neg h1, if_neg h2, if_pos hsign, hrec]
    have e1 : 1 + (mi - 2) = mi - 1 := by omega
    rw [e1]
  · intro fn x1 x2 mi d hmi h1 h2 hdiv h
    have hrec := secantGo_exhaust fn (threshold d) (mi - 2) 1 (x1, x2)
      (fun k hk => h k (by omega))
    simp only [secant_method, if_neg h1, if_neg h2, hrec]
    have e1 : 1 + (mi - 2) = mi - 1 := by omega
    rw [e1]

/-- Witness for C3: concrete non-converging runs of all seven routines with
small iteration caps, each returning iteration count `max_iter - 1`. -/
theorem nonconvergence_returns_count_witness :
    jacobi_method [[1]] [2] [0] 1 6 = (0, [2]) ∧
    gauss_seidel_method [[1]] [2] [0] 1 6 = (0, [2]) ∧
    simple_iteration 1 (-1) 2 0 2 6 = (1, 2) ∧
    newton_raphson 1 0 (-2) 1 2 6 = (1, 3/2) ∧
    bisection_method (fun x => x * x - 2) 1 2 2 6 = some (1, 1) ∧
    regula_falsi (fun x => x * x - 2) 1 2 2 6 = some (1, 133333/100000) ∧
    secant_method (fun x => x * x - 2) 1 2 2 6 = (1, 133333/100000) := by
  refine ⟨?_, ?_, ?_, ?_, ?_, ?_, ?_⟩
  · have h := nonconvergence_returns_count.1 [[1]] [2] [0] 1 6 le_rfl (by
      intro t ht
      interval_cases t
      norm_num [jacobiSweep, iterComp, matEntry, threshold, List.range_succ])
    rw [h]
    norm_num [jacobiSweep, iterComp, matEntry, around, roundHalfEven,
      List.range_succ]
  · have h := nonconvergence_returns_count.2.1 [[1]] [2] [0] 1 6 le_rfl (by
      intro t ht
      interval_cases t
      norm_num [gsSweep, gsFoldStep, gsNext, iterComp, matEntry, threshold,
        List.range_succ])
    rw [h]
    norm_num [gsSweep, gsFoldStep, gsNext, iterComp, matEntry, around,
      roundHalfEven, threshold, List.range_succ]
  · have h := nonconvergence_returns_count.2.2.1 1 (-1) 2 0 2 6 le_rfl
      (by norm_num)
      (by
        intro k hk
        interval_cases k
        norm_num [simpleUpd, threshold])
    rw [h]
    norm_num [simpleUpd, around, roundHalfEven]
  · have h := nonconvergence_returns_count.2.2.2.1 1 0 (-2) 1 2 6 le_rfl
      (by
        intro k hk
        interval_cases k
        norm_num [newtonUpd])
      (by
        intro k hk
        interval_cases k
        norm_num [newtonUpd, threshold, le_abs])
    rw [h]
    norm_num [newtonUpd, around, roundHalfEven]
  · have h := nonconvergence_returns_count.2.2.2.2.1 (fun x => x * x - 2) 1 2
      2 6 le_rfl (by norm_num) (by norm_num) (by norm_num)
      (by
        intro k hk
        interval_cases k
        norm_num [bisectStep, threshold, le_abs])
    rw [h]
    norm_num [bisectStep, around, roundHalfEven]
  · have h := nonconvergence_returns_count.2.2.2.2.2.1 (fun x => x * x - 2)
      1 2 2 6 le_rfl (by norm_num [threshold]) (by norm_num [threshold])
      (by norm_num)
      (by
        intro k hk
        interval_cases k
        norm_num [regulaStep, regulaXh])
      (by
        intro k hk
        interval_cases k
        norm_num [regulaStep, regulaXh, threshold, le_abs])
    rw [h]
    norm_num [regulaStep, regulaXh, around, roundHalfEven]
  · have h := nonconvergence_returns_count.2.2.2.2.2.2 (fun x => x * x - 2)
      1 2 2 6 le_rfl (by norm_num [threshold]) (by norm_num [threshold])
      (by
        intro k hk
        interval_cases k
        norm_num [secantStep, secantNew])
      (by
        intro k hk
        interval_cases k
        norm_num [secantStep, secantNew, threshold, le_abs])
    rw [h]
    norm_num [secantStep, secantNew, around, roundHalfEven]

theorem jacobiGo_shift (A : List (List ℚ)) (b : List ℚ) (thr : ℚ) :
    ∀ (fuel iter : ℕ) (x : List ℚ),
      jacobiGo A b thr fuel iter x =
        ((jacobiGo A b thr fuel 0 x).1 + iter, (jacobiGo A b thr fuel 0 x).2) := by
  intro fuel
  induction fuel with
  | zero => intro iter x; simp [jacobiGo]
  | succ f ih =>
    intro iter x
    by_cases hstop : ∀ i ∈ List.range b.length,
      |(jacobiSweep A b x).getD i 0 - x.getD i 0| < thr
    · simp only [jacobiGo, if_pos hstop]
      simp
    · simp only [jacobiGo, if_neg hstop]
      rw [ih (iter + 1), ih 1]
      exact Prod.ext (by omega) rfl

theorem jacobiGo_le (A : List (List ℚ)) (b : List ℚ) (thr : ℚ) :
    ∀ (fuel : ℕ) (x : List ℚ), (jacobiGo A b thr fuel 0 x).1 ≤ fuel := by
  intro fuel
  induction fuel with
  | zero => intro x; simp [jacobiGo]
  | succ f ih =>
    intro x
    by_cases hstop : ∀ i ∈ List.range b.length,
      |(jacobiSweep A b x).getD i 0 - x.getD i 0| < thr
    · simp only [jacobiGo, if_pos hstop]
      simp
    · simp only [jacobiGo, if_neg hstop]
      rw [jacobiGo_shift A b thr f 1 (jacobiSweep A b x)]
      have := ih (jacobiSweep A b x)
      simp only
      omega

theorem jacobiGo_no_early_stop (A : List (List ℚ)) (b : List ℚ) (thr : ℚ) :
    ∀ (fuel : ℕ) (x : List ℚ) (t : ℕ), t < (jacobiGo A b thr fuel 0 x).1 →
      ¬jacobiStop A b thr ((jacobiSweep A b)^[t] x) := by
  intro fuel
  induction fuel with
  | zero => intro x t ht; simp [jacobiGo] at ht
  | succ f ih =>
    intro x t ht
    by_cases hstop : ∀ i ∈ List.range b.length,
      |(jacobiSweep A b x).getD i 0 - x.getD i 0| < thr
    · simp only [jacobiGo, if_pos hstop] at ht
      simp at ht
    · rw [show jacobiGo A b thr (f + 1) 0 x = jacobiGo A b thr f 1 (jacobiSweep A b x)
          from by simp only [jacobiGo, if_neg hstop],
        jacobiGo_shift A b thr f 1 (jacobiSweep A b x)] at ht
      match t with
      | 0 =>
        simpa only [Function.iterate_zero, id_eq, jacobiStop] using hstop
      | s + 1 =>
        have hs : s < (jacobiGo A b thr f 0 (jacobiSweep A b x)).1 := by
          simp only at ht
          omega
        have := ih (jacobiSweep A b x) s hs
        simpa only [← Function.iterate_succ_apply] using this

theorem jacobiGo_stop_at_return (A : List (List ℚ)) (b : List ℚ) (thr : ℚ) :
    ∀ (fuel : ℕ) (x : List ℚ), (jacobiGo A b thr fuel 0 x).1 < fuel →
      jacobiStop A b thr ((jacobiSweep A b)^[(jacobiGo A b thr fuel 0 x).1] x) := by
  intro fuel
  induction fuel with
  | zero => intro x hx; simp [jacobiGo] at hx
  | succ f ih =>
    intro x hx
    by_cases hstop : ∀ i ∈ List.range b.length,
      |(jacobiSweep A b x).getD i 0 - x.getD i 0| < thr
    · simp only [jacobiGo, if_pos hstop]
      simpa only [Function.iterate_zero, id_eq, jacobiStop] using hstop
    · rw [show jacobiGo A b thr (f + 1) 0 x = jacobiGo A b thr f 1 (jacobiSweep A b x)
          from by simp only [jacobiGo, if_neg hstop],
        jacobiGo_shift A b thr f 1 (jacobiSweep A b x)] at hx ⊢
      simp only at hx ⊢
      have hlt : (jacobiGo A b thr f 0 (jacobiSweep A b x)).1 < f := by omega
      have := ih (jacobiSweep A b x) hlt
      rw [← Function.iterate_succ_apply] at this
      simpa [Nat.add_comm] using this

theorem gsGo_shift (A : List (List ℚ)) (b : List ℚ) (thr : ℚ) :
    ∀ (fuel iter : ℕ) (x : List ℚ),
      gsGo A b thr fuel iter x =
        ((gsGo A b thr fuel 0 x).1 + iter, (gsGo A b thr fuel 0 x).2) := by
  intro fuel
  induction fuel with
  | zero => intro iter x; simp [gsGo]
  | succ f ih =>
    intro iter x
    by_cases hstop :
      (gsSweep A b x (List.replicate b.length 0) (|thr| + 1)).2.2 < thr
    · simp only [gsGo, if_pos hstop]
      simp
    · simp only [gsGo, if_neg hstop]
      rw [ih (iter + 1), ih 1]
      exact Prod.ext (by omega) rfl

theorem gsGo_le (A : List (List ℚ)) (b : List ℚ) (thr : ℚ) :
    ∀ (fuel : ℕ) (x : List ℚ), (gsGo A b thr fuel 0 x).1 ≤ fuel := by
  intro fuel
  induction fuel with
  | zero => intro x; simp [gsGo]
  | succ f ih =>
    intro x
    by_cases hstop :
      (gsSweep A b x (List.replicate b.length 0) (|thr| + 1)).2.2 < thr
    · simp only [gsGo, if_pos hstop]
      simp
    · simp only [gsGo, if_neg hstop]
      rw [gsGo_shift A b thr f 1]
      have := ih (gsSweep A b x (List.replicate b.length 0) (|thr| + 1)).1
      simp only
      omega

theorem gsGo_no_early_stop (A : List (List ℚ)) (b : List ℚ) (thr : ℚ) :
    ∀ (fuel : ℕ) (x : List ℚ) (t : ℕ), t < (gsGo A b thr fuel 0 x).1 →
      ¬gsStop A b thr ((gsNext A b thr)^[t] x) := by
  intro fuel
  induction fuel with
  | zero => intro x t ht; simp [gsGo] at ht
  | succ f ih =>
    intro x t ht
    by_cases hstop :
      (gsSweep A b x (List.replicate b.length 0) (|thr| + 1)).2.2 < thr
    · simp only [gsGo, if_pos hstop] at ht
      simp at ht
    · rw [show gsGo A b thr (f + 1) 0 x =
            gsGo A b thr f 1 (gsSweep A b x (List.replicate b.length 0) (|thr| + 1)).1
          from by simp only [gsGo, if_neg hstop],
        gsGo_shift A b thr f 1] at ht
      match t with
      | 0 =>
        simpa only [Function.iterate_zero, id_eq, gsStop] using hstop
      | s + 1 =>
        have hs : s < (gsGo A b thr f 0
            (gsSweep A b x (List.replicate b.length 0) (|thr| + 1)).1).1 := by
          simp only at ht
          omega
        have := ih (gsSweep A b x (List.replicate b.length 0) (|thr| + 1)).1 s hs
        simpa only [← Function.iterate_succ_apply, gsNext] using this

theorem gsGo_stop_at_return (A : List (List ℚ)) (b : List ℚ) (thr : ℚ) :
    ∀ (fuel : ℕ) (x : List ℚ), (gsGo A b thr fuel 0 x).1 < fuel →
      gsStop A b thr ((gsNext A b thr)^[(gsGo A b thr fuel 0 x).1] x) := by
  intro fuel
  induction fuel with
  | zero => intro x hx; simp [gsGo] at hx
  | succ f ih =>
    intro x hx
    by_cases hstop :
      (gsSweep A b x (List.replicate b.length 0) (|thr| + 1)).2.2 < thr
    · simp only [gsGo, if_pos hstop]
      simpa only [Function.iterate_zero, id_eq, gsStop] using hstop
    · rw [show gsGo A b thr (f + 1) 0 x =
            gsGo A b thr f 1 (gsSweep A b x (List.replicate b.length 0) (|thr| + 1)).1
          from by simp only [gsGo, if_neg hstop],
        gsGo_shift A b thr f 1] at hx ⊢
      simp only at hx ⊢
      have hlt : (gsGo A b thr f 0
          (gsSweep A b x (List.replicate b.length 0) (|thr| + 1)).1).1 < f := by omega
      have := ih (gsSweep A b x (List.replicate b.length 0) (|thr| + 1)).1 hlt
      rw [show (gsSweep A b x (List.replicate b.length 0) (|thr| + 1)).1 =
        gsNext A b thr x from rfl, ← Function.iterate_succ_apply] at this
      simpa [Nat.add_comm, gsNext] using this

theorem gsFold_length (A : List (List ℚ)) (b : List ℚ) :
    ∀ (l : List ℕ) (st : List ℚ × List ℚ × ℚ),
      ((l.foldl (gsFoldStep A b) st).2.1).length = st.2.1.length := by
  intro l
  induction l with
  | nil => intro st; rfl
  | cons i tl ih =>
    intro st
    simp only [List.foldl_cons, ih, gsFoldStep, List.length_set]

theorem gsFold_fst_getD_notMem (A : List (List ℚ)) (b : List ℚ) :
    ∀ (l : List ℕ) (st : List ℚ × List ℚ × ℚ) (j : ℕ), (∀ i ∈ l, i ≠ j) →
      ((l.foldl (gsFoldStep A b) st).1).getD j 0 = st.1.getD j 0 := by
  intro l
  induction l with
  | nil => intro st j _; rfl
  | cons i tl ih =>
    intro st j hne
    simp only [List.foldl_cons]
    rw [ih _ j (fun i2 hi2 => hne i2 (by simp [hi2]))]
    have hij : i ≠ j := hne i (by simp)
    simp only [gsFoldStep]
    simp [List.getD, List.getElem?_set_ne hij]

/-- The `xdiff` consulted by the Gauss–Seidel convergence test is exactly
the absolute change of the last computed component of the sweep. -/
theorem gsSweep_xdiff_eq_last (A : List (List ℚ)) (b : List ℚ) (x0 : List ℚ)
    (d0 : ℚ) (hn : 1 ≤ b.length) :
    (gsSweep A b x0 (List.replicate b.length 0) d0).2.2 =
      |(gsSweep A b x0 (List.replicate b.length 0) d0).2.1.getD (b.length - 1) 0 -
        x0.getD (b.length - 1) 0| := by
  obtain ⟨n, hn'⟩ : ∃ n, b.length = n + 1 := ⟨b.length - 1, by omega⟩
  simp only [gsSweep, hn', List.range_succ, List.foldl_append, List.foldl_cons,
    List.foldl_nil, Nat.add_sub_cancel]
  set st := (List.range n).foldl (gsFoldStep A b)
    (x0, List.replicate (n + 1) (0 : ℚ), d0) with hst
  have hx0 : st.1.getD n 0 = x0.getD n 0 := by
    rw [hst]
    exact gsFold_fst_getD_notMem A b (List.range n) _ n
      (fun i hi => by simp at hi; omega)
  have hlen : st.2.1.length = n + 1 := by
    rw [hst, gsFold_length]
    simp
  simp only [gsFoldStep, hx0]
  have hset : (st.2.1.set n (iterComp A b st.1 n)).getD n 0 = iterComp A b st.1 n := by
    simp [List.getD, List.getElem?_set_self, show n < st.2.1.length by omega]
  rw [hset]

/-- Claim C2: `jacobi_method` stops before the iteration cap exactly when
every component's absolute change from the previous iterate is below the
threshold `10^(-decimals)`, whereas `gauss_seidel_method` stops exactly when
the tested `xdiff` — which equals the absolute change of only the last
computed component of the sweep — is below that threshold. -/
theorem stopping_criteria (A : List (List ℚ)) (b g : List ℚ) (mi d : ℕ)
    (hmi : 1 ≤ mi) (hn : 1 ≤ b.length) :
    ((jacobi_method A b g mi d).1 ≤ mi - 1 ∧
     (∀ t < (jacobi_method A b g mi d).1,
        ¬jacobiStop A b (threshold d) ((jacobiSweep A b)^[t] g)) ∧
     ((jacobi_method A b g mi d).1 < mi - 1 →
        jacobiStop A b (threshold d)
          ((jacobiSweep A b)^[(jacobi_method A b g mi d).1] g))) ∧
    ((gauss_seidel_method A b g mi d).1 ≤ mi - 1 ∧
     (∀ t < (gauss_seidel_method A b g mi d).1,
        ¬gsStop A b (threshold d) ((gsNext A b (threshold d))^[t] g)) ∧
     ((gauss_seidel_method A b g mi d).1 < mi - 1 →
        gsStop A b (threshold d)
          ((gsNext A b (threshold d))^[(gauss_seidel_method A b g mi d).1] g))) ∧
    (∀ (x : List ℚ) (d0 : ℚ),
      (gsSweep A b x (List.replicate b.length 0) d0).2.2 =
        |(gsSweep A b x (List.replicate b.length 0) d0).2.1.getD (b.length - 1) 0 -
          x.getD (b.length - 1) 0|) := by
  have hj1 : (jacobi_method A b g mi d).1 = (jacobiGo A b (threshold d) (mi - 1) 0 g).1 := by
    simp [jacobi_method]
  have hg1 : (gauss_seidel_method A b g mi d).1 =
      (gsGo A b (threshold d) (mi - 1) 0 g).1 := by
    simp [gauss_seidel_method]
  refine ⟨⟨?_, ?_, ?_⟩, ⟨?_, ?_, ?_⟩, ?_⟩
  · rw [hj1]; exact jacobiGo_le A b (threshold d) (mi - 1) g
  · rw [hj1]; exact fun t ht => jacobiGo_no_early_stop A b (threshold d) (mi - 1) g t ht
  · rw [hj1]; exact fun hlt => jacobiGo_stop_at_return A b (threshold d) (mi - 1) g hlt
  · rw [hg1]; exact gsGo_le A b (threshold d) (mi - 1) g
  · rw [hg1]; exact fun t ht => gsGo_no_early_stop A b (threshold d) (mi - 1) g t ht
  · rw [hg1]; exact fun hlt => gsGo_stop_at_return A b (threshold d) (mi - 1) g hlt
  · exact fun x d0 => gsSweep_xdiff_eq_last A b x d0 hn

/-- Witness for C2 on a converging 1×1 system (`x = b` after one sweep, so
both methods stop at iteration 0 of a cap of 3). -/
theorem stopping_criteria_witness :
    (jacobi_method [[1]] [1] [1] 3 6).1 ≤ 2 ∧
    jacobiStop [[1]] [1] (threshold 6)
      ((jacobiSweep [[1]] [1])^[(jacobi_method [[1]] [1] [1] 3 6).1] [1]) := by
  have h := stopping_criteria [[1]] [1] [1] 3 6 (by norm_num) (by norm_num)
  refine ⟨h.1.1, h.1.2.2 ?_⟩
  norm_num [jacobi_method, jacobiGo, jacobiSweep, iterComp, matEntry, threshold,
    List.range_succ]

theorem Mem.read1_write1_ne (m : Mem) (r r' i : ℕ) (q : ℚ) (h : r' ≠ r) :
    (m.write1 r i q).read1 r' = m.read1 r' := by
  simp [Mem.read1, Mem.write1, List.getD, List.getElem?_set_ne (Ne.symm h)]

theorem Mem.read1_write2 (m : Mem) (r i j : ℕ) (q : ℚ) (r' : ℕ) :
    (m.write2 r i j q).read1 r' = m.read1 r' := rfl

theorem Mem.read2_write1 (m : Mem) (r i : ℕ) (q : ℚ) (r' : ℕ) :
    (m.write1 r i q).read2 r' = m.read2 r' := rfl

theorem Mem.read2_write2_ne (m : Mem) (r i j : ℕ) (q : ℚ) (r' : ℕ) (h : r' ≠ r) :
    (m.write2 r i j q).read2 r' = m.read2 r' := by
  simp [Mem.read2, Mem.write2, List.getD, List.getElem?_set_ne (Ne.symm h)]

theorem Mem.read1_alloc1 (m : Mem) (v : List ℚ) (r' : ℕ) (h : r' < m.a1.length) :
    (m.alloc1 v).1.read1 r' = m.read1 r' := by
  simp [Mem.read1, Mem.alloc1, List.getD, List.getElem?_append_left h]

theorem Mem.read1_alloc2 (m : Mem) (v : List (List ℚ)) (r' : ℕ) :
    (m.alloc2 v).1.read1 r' = m.read1 r' := rfl

theorem Mem.read2_alloc1 (m : Mem) (v : List ℚ) (r' : ℕ) :
    (m.alloc1 v).1.read2 r' = m.read2 r' := rfl

theorem Mem.read2_alloc2 (m : Mem) (v : List (List ℚ)) (r' : ℕ)
    (h : r' < m.a2.length) : (m.alloc2 v).1.read2 r' = m.read2 r' := by
  simp [Mem.read2, Mem.alloc2, List.getD, List.getElem?_append_left h]

theorem Mem.a1_length_write1 (m : Mem) (r i : ℕ) (q : ℚ) :
    (m.write1 r i q).a1.length = m.a1.length := by
  simp [Mem.write1]

theorem Mem.a1_length_write2 (m : Mem) (r i j : ℕ) (q : ℚ) :
    (m.write2 r i j q).a1.length = m.a1.length := rfl

theorem Mem.a1_length_alloc1 (m : Mem) (v : List ℚ) :
    (m.alloc1 v).1.a1.length = m.a1.length + 1 := by
  simp [Mem.alloc1]

theorem foldl_invariant {α β : Type} (f : β → α → β) (P : β → Prop)
    (hf : ∀ b a, P b → P (f b a)) :
    ∀ (l : List α) (b : β), P b → P (l.foldl f b) := by
  intro l
  induction l with
  | nil => exact fun b hb => hb
  | cons a tl ih => exact fun b hb => ih _ (hf b a hb)

theorem gaussElimStepMem_pres (rA2 rb2 n r1 r2 : ℕ) (h1 : r1 ≠ rb2)
    (h2 : r2 ≠ rA2) (m : Mem) (k : ℕ) :
    (gaussElimStepMem rA2 rb2 n m k).read1 r1 = m.read1 r1 ∧
    (gaussElimStepMem rA2 rb2 n m k).read2 r2 = m.read2 r2 := by
  unfold gaussElimStepMem
  refine foldl_invariant _
    (fun mm : Mem => mm.read1 r1 = m.read1 r1 ∧ mm.read2 r2 = m.read2 r2) ?_ _ _ ?_
  · intro mm row hmm
    by_cases hz : mm.entry2 rA2 row k = 0
    · simpa [hz] using hmm
    · simp only [if_neg hz]
      refine foldl_invariant _
        (fun m3 : Mem => m3.read1 r1 = m.read1 r1 ∧ m3.read2 r2 = m.read2 r2) ?_ _ _ ?_
      · intro m3 col hm3
        refine ⟨?_, ?_⟩
        · rw [Mem.read1_write2]
          exact hm3.1
        · rw [Mem.read2_write2_ne _ _ _ _ _ _ h2]
          exact hm3.2
      · refine ⟨?_, ?_⟩
        · rw [Mem.read1_write1_ne _ _ _ _ _ h1]
          exact hmm.1
        · rw [Mem.read2_write1]
          exact hmm.2
  · by_cases hz : m.entry2 rA2 k k = 0
    · simp only [if_pos hz]
      have hsw : ∀ (l : List ℕ),
          ((l.foldl (fun mm col =>
            (mm.write2 rA2 k col (mm.entry2 rA2 (k + 1) col)).write2 rA2 (k + 1) col
              (mm.entry2 rA2 k col)) m).read1 r1 = m.read1 r1) ∧
          ((l.foldl (fun mm col =>
            (mm.write2 rA2 k col (mm.entry2 rA2 (k + 1) col)).write2 rA2 (k + 1) col
              (mm.entry2 rA2 k col)) m).read2 r2 = m.read2 r2) := by
        intro l
        refine foldl_invariant _
          (fun mm : Mem => mm.read1 r1 = m.read1 r1 ∧ mm.read2 r2 = m.read2 r2) ?_ _ _
          ⟨rfl, rfl⟩
        intro mm col hmm
        refine ⟨?_, ?_⟩
        · rw [Mem.read1_write2, Mem.read1_write2]
          exact hmm.1
        · rw [Mem.read2_write2_ne _ _ _ _ _ _ h2, Mem.read2_write2_ne _ _ _ _ _ _ h2]
          exact hmm.2
      refine ⟨?_, ?_⟩
      · rw [Mem.read1_write1_ne _ _ _ _ _ h1, Mem.read1_write1_ne _ _ _ _ _ h1]
        exact (hsw _).1
      · rw [Mem.read2_write1, Mem.read2_write1]
        exact (hsw _).2
    · simp [hz]

theorem gaussBodyMem_pres (rA2 rb2 rx n r1 r2 : ℕ) (h1 : r1 ≠ rb2)
    (h1x : r1 ≠ rx) (h2 : r2 ≠ rA2) (m : Mem) :
    (gaussBodyMem rA2 rb2 rx n m).read1 r1 = m.read1 r1 ∧
    (gaussBodyMem rA2 rb2 rx n m).read2 r2 = m.read2 r2 := by
  unfold gaussBodyMem
  refine foldl_invariant _
    (fun mm : Mem => mm.read1 r1 = m.read1 r1 ∧ mm.read2 r2 = m.read2 r2) ?_ _ _ ?_
  · intro mm row hmm
    refine ⟨?_, ?_⟩
    · rw [Mem.read1_write1_ne _ _ _ _ _ h1x]
      exact hmm.1
    · rw [Mem.read2_write1]
      exact hmm.2
  · have h4 := foldl_invariant _
      (fun mm : Mem => mm.read1 r1 = m.read1 r1 ∧ mm.read2 r2 = m.read2 r2)
      (fun mm k hmm => by
        have hstep := gaussElimStepMem_pres rA2 rb2 n r1 r2 h1 h2 mm k
        exact ⟨hstep.1.trans hmm.1, hstep.2.trans hmm.2⟩)
      (List.range (n - 1)) m ⟨rfl, rfl⟩
    refine ⟨?_, ?_⟩
    · rw [Mem.read1_write1_ne _ _ _ _ _ h1x]
      exact h4.1
    · rw [Mem.read2_write1]
      exact h4.2

/-- `gaussian_elimination` never mutates the caller's `A` or `b`: every
write in its body targets the defensive copies or the fresh `x`. -/
theorem gaussian_elimination_mem_frame (m : Mem) (rA rb : ℕ)
    (hA : rA < m.a2.length) (hb : rb < m.a1.length) :
    (gaussian_elimination_mem rA rb m).2.read2 rA = m.read2 rA ∧
    (gaussian_elimination_mem rA rb m).2.read1 rb = m.read1 rb := by
  have e1 : (m.alloc2 (m.read2 rA)).1.a1.length = m.a1.length := rfl
  have e2 : ∀ v : List ℚ, ((m.alloc2 (m.read2 rA)).1.alloc1 v).1.a1.length =
      m.a1.length + 1 := by
    intro v
    rw [Mem.a1_length_alloc1, e1]
  have hb2 : rb ≠ (m.alloc2 (m.read2 rA)).1.a1.length := by rw [e1]; omega
  have hbx : ∀ v : List ℚ, rb ≠ ((m.alloc2 (m.read2 rA)).1.alloc1 v).1.a1.length := by
    intro v
    rw [e2]
    omega
  have hA2 : rA ≠ m.a2.length := by omega
  simp only [gaussian_elimination_mem]
  constructor
  · rw [(gaussBodyMem_pres _ _ _ _ rb rA hb2 (hbx _) hA2 _).2]
    rw [Mem.read2_alloc1, Mem.read2_alloc1]
    exact Mem.read2_alloc2 m _ rA hA
  · rw [(gaussBodyMem_pres _ _ _ _ rb rA hb2 (hbx _) hA2 _).1]
    rw [Mem.read1_alloc1 _ _ _ (by rw [e2]; omega)]
    rw [Mem.read1_alloc1 _ _ _ (by rw [e1]; omega)]
    rw [Mem.read1_alloc2]

theorem Mem.read1_write1_self (m : Mem) (r i : ℕ) (q : ℚ) :
    (m.write1 r i q).read1 r = (m.read1 r).set i q := by
  by_cases hr : r < m.a1.length
  · simp [Mem.read1, Mem.write1, List.getD, List.getElem?_set_self hr]
  · push_neg at hr
    have h0 : m.read1 r = [] := by
      simp [Mem.read1, List.getD, List.getElem?_eq_none hr]
    rw [h0]
    simp [Mem.read1, Mem.write1, List.getD, List.set_eq_of_length_le hr,
      List.getElem?_eq_none hr]

theorem Mem.entry1_write1_self (m : Mem) (r i : ℕ) (q : ℚ)
    (hi : i < (m.read1 r).length) : (m.write1 r i q).entry1 r i = q := by
  rw [Mem.entry1, Mem.read1_write1_self]
  simp [List.getD, List.getElem?_set_self, hi]

theorem Mem.entry1_write1_ne_idx (m : Mem) (r i i' : ℕ) (q : ℚ) (h : i' ≠ i) :
    (m.write1 r i q).entry1 r i' = m.entry1 r i' := by
  rw [Mem.entry1, Mem.entry1, Mem.read1_write1_self]
  simp [List.getD, List.getElem?_set_ne (Ne.symm h)]

theorem Mem.read1_alloc1_self (m : Mem) (v : List ℚ) :
    (m.alloc1 v).1.read1 m.a1.length = v := by
  simp [Mem.alloc1, Mem.read1, List.getD]

theorem jacobiSweepMem_pres (rA rb rxnew xr n rg : ℕ) (hne : rg ≠ rxnew)
    (m : Mem) :
    ((List.range n).foldl
        (fun mm i => mm.write1 rxnew i (iterCompMem rA rb xr mm n i)) m).read1 rg =
      m.read1 rg ∧
    ((List.range n).foldl
        (fun mm i => mm.write1 rxnew i (iterCompMem rA rb xr mm n i)) m).a1.length =
      m.a1.length := by
  refine foldl_invariant _
    (fun mm : Mem => mm.read1 rg = m.read1 rg ∧ mm.a1.length = m.a1.length)
    ?_ _ _ ⟨rfl, rfl⟩
  intro mm i hmm
  refine ⟨?_, ?_⟩
  · rw [Mem.read1_write1_ne _ _ _ _ _ hne]
    exact hmm.1
  · rw [Mem.a1_length_write1]
    exact hmm.2

theorem jacobiGoMem_frame (rA rb rxnew n : ℕ) (thr : ℚ) (d : ℤ) (rg : ℕ)
    (hne : rg ≠ rxnew) :
    ∀ (fuel iter xr : ℕ) (m : Mem), rg < m.a1.length →
      (jacobiGoMem rA rb rxnew n thr d fuel iter xr m).2.read1 rg = m.read1 rg := by
  intro fuel
  induction fuel with
  | zero =>
    intro iter xr m hrg
    simp only [jacobiGoMem]
    exact (jacobiSweepMem_pres rA rb rxnew xr n rg hne m).1
  | succ f ih =>
    intro iter xr m hrg
    have hpres := jacobiSweepMem_pres rA rb rxnew xr n rg hne m
    simp only [jacobiGoMem]
    split
    · exact hpres.1
    · rw [ih _ _ _ (by rw [Mem.a1_length_alloc1]; omega)]
      rw [Mem.read1_alloc1 _ _ _ (by omega)]
      exact hpres.1

/-- `jacobi_method` never mutates the caller's `initial_guess`: `x` starts
as an alias of it but is only ever re-bound to fresh copies, and all
subscript writes target `xnew`. -/
theorem jacobi_method_mem_frame (m : Mem) (rA rb rg mi d : ℕ)
    (hrg : rg < m.a1.length) :
    (jacobi_method_mem rA rb rg mi d m).2.read1 rg = m.read1 rg := by
  have hne : rg ≠ m.a1.length := by omega
  simp only [jacobi_method_mem]
  rw [jacobiGoMem_frame _ _ _ _ _ _ _ hne _ _ _ _
    (by rw [Mem.a1_length_alloc1]; omega)]
  exact Mem.read1_alloc1 m _ rg hrg

theorem Mem.entry1_write1_ne_ref (m : Mem) (r i : ℕ) (q : ℚ) (r' i' : ℕ)
    (h : r' ≠ r) : (m.write1 r i q).entry1 r' i' = m.entry1 r' i' := by
  rw [Mem.entry1, Mem.entry1, Mem.read1_write1_ne _ _ _ _ _ h]

theorem gsSweepMemAux (rA rb rxnew rg n : ℕ) (hne : rg ≠ rxnew) (m : Mem)
    (d0 : ℚ) (hrg : rg < m.a1.length) (hrx : rxnew < m.a1.length)
    (hLg : n ≤ (m.read1 rg).length) (hLx : n ≤ (m.read1 rxnew).length) :
    ∀ j, j ≤ n →
      ((((List.range j).foldl (gsMemStep rA rb rxnew rg n) (m, d0)).1.read1 rg).length =
          (m.read1 rg).length ∧
        (((List.range j).foldl (gsMemStep rA rb rxnew rg n) (m, d0)).1.read1 rxnew).length =
          (m.read1 rxnew).length ∧
        ((List.range j).foldl (gsMemStep rA rb rxnew rg n) (m, d0)).1.a1.length =
          m.a1.length ∧
        ∀ i < j, ((List.range j).foldl (gsMemStep rA rb rxnew rg n) (m, d0)).1.entry1 rg i =
          ((List.range j).foldl (gsMemStep rA rb rxnew rg n) (m, d0)).1.entry1 rxnew i) := by
  intro j
  induction j with
  | zero =>
    intro _
    exact ⟨rfl, rfl, rfl, fun i hi => absurd hi (by omega)⟩
  | succ jj ih =>
    intro hj
    obtain ⟨Hg, Hx, Ha, Hpt⟩ := ih (by omega)
    rw [List.range_succ, List.foldl_append, List.foldl_cons, List.foldl_nil]
    set st := (List.range jj).foldl (gsMemStep rA rb rxnew rg n) (m, d0) with hst
    simp only [gsMemStep]
    set v := iterCompMem rA rb rg st.1 n jj with hv
    refine ⟨?_, ?_, ?_, ?_⟩
    · rw [Mem.read1_write1_self, List.length_set,
        Mem.read1_write1_ne _ _ _ _ _ hne]
      exact Hg
    · rw [Mem.read1_write1_ne _ _ _ _ _ (Ne.symm hne),
        Mem.read1_write1_self, List.length_set]
      exact Hx
    · rw [Mem.a1_length_write1, Mem.a1_length_write1]
      exact Ha
    · intro i hi
      rcases Nat.lt_succ_iff_lt_or_eq.mp hi with hlt | heq
      · rw [Mem.entry1_write1_ne_idx _ _ _ _ _ (by omega),
          Mem.entry1_write1_ne_ref _ _ _ _ _ _ hne,
          Mem.entry1_write1_ne_ref _ _ _ _ _ _ (Ne.symm hne),
          Mem.entry1_write1_ne_idx _ _ _ _ _ (by omega)]
        exact Hpt i hlt
      · subst heq
        have hbound_g : i < ((st.1.write1 rxnew i v).read1 rg).length := by
          rw [Mem.read1_write1_ne _ _ _ _ _ hne]
          omega
        have hbound_x : i < (st.1.read1 rxnew).length := by omega
        rw [Mem.entry1_write1_self _ _ _ _ hbound_g,
          Mem.entry1_write1_ne_ref _ _ _ _ _ _ (Ne.symm hne),
          Mem.entry1_write1_self _ _ _ _ hbound_x]

theorem gsSweepMem_agree (rA rb rxnew rg n : ℕ) (hne : rg ≠ rxnew) (m : Mem)
    (d0 : ℚ) (hrg : rg < m.a1.length) (hrx : rxnew < m.a1.length)
    (hLg : (m.read1 rg).length = n) (hLx : (m.read1 rxnew).length = n) :
    (gsSweepMem rA rb rxnew rg n m d0).1.read1 rg =
      (gsSweepMem rA rb rxnew rg n m d0).1.read1 rxnew ∧
    (gsSweepMem rA rb rxnew rg n m d0).1.a1.length = m.a1.length ∧
    ((gsSweepMem rA rb rxnew rg n m d0).1.read1 rg).length = n ∧
    ((gsSweepMem rA rb rxnew rg n m d0).1.read1 rxnew).length = n := by
  obtain ⟨Hg, Hx, Ha, Hpt⟩ := gsSweepMemAux rA rb rxnew rg n hne m d0 hrg hrx
    (by omega) (by omega) n le_rfl
  have hGg : ((gsSweepMem rA rb rxnew rg n m d0).1.read1 rg).length = n := by
    rw [gsSweepMem, Hg, hLg]
  have hGx : ((gsSweepMem rA rb rxnew rg n m d0).1.read1 rxnew).length = n := by
    rw [gsSweepMem, Hx, hLx]
  refine ⟨?_, by rw [gsSweepMem]; exact Ha, hGg, hGx⟩
  apply List.ext_getElem (by rw [hGg, hGx])
  intro i h1 h2
  have hin : i < n := by omega
  have e1 := List.getD_eq_getElem ((gsSweepMem rA rb rxnew rg n m d0).1.read1 rg) 0 h1
  have e2 := List.getD_eq_getElem ((gsSweepMem rA rb rxnew rg n m d0).1.read1 rxnew) 0 h2
  rw [← e1, ← e2]
  exact Hpt i hin

theorem gsGoMem_holds (rA rb rxnew rg n : ℕ) (thr : ℚ) (d : ℤ)
    (hne : rg ≠ rxnew) :
    ∀ (fuel iter : ℕ) (m : Mem), rg < m.a1.length → rxnew < m.a1.length →
      (m.read1 rg).length = n → (m.read1 rxnew).length = n →
      ((gsGoMem rA rb rxnew rg n thr d fuel iter m).2.read1 rg =
        (gsGoMem rA rb rxnew rg n thr d fuel iter m).2.read1 rxnew ∧
       (gsGoMem rA rb rxnew rg n thr d fuel iter m).1.2 =
        ((gsGoMem rA rb rxnew rg n thr d fuel iter m).2.read1 rxnew).map (around d)) := by
  intro fuel
  induction fuel with
  | zero =>
    intro iter m hrg hrx hLg hLx
    simp only [gsGoMem]
    exact ⟨(gsSweepMem_agree rA rb rxnew rg n hne m _ hrg hrx hLg hLx).1, by trivial⟩
  | succ f ih =>
    intro iter m hrg hrx hLg hLx
    obtain ⟨He, Ha, Hg, Hx⟩ := gsSweepMem_agree rA rb rxnew rg n hne m
      (|thr| + 1) hrg hrx hLg hLx
    simp only [gsGoMem]
    split
    · exact ⟨He, by trivial⟩
    · exact ih (iter + 1) _ (by omega) (by omega) Hg Hx

/-- `gauss_seidel_method` writes each new component into the caller's
`initial_guess` through the alias `x`: on return that array equals the
internal `xnew` array (address `m.a1.length`), and the returned solution is
exactly its rounding — the array holds the final unrounded iterate. -/
theorem gauss_seidel_method_mem_inplace (m : Mem) (rA rb rg mi d : ℕ)
    (hrg : rg < m.a1.length)
    (hlen : (m.read1 rg).length = (m.read1 rb).length) :
    (gauss_seidel_method_mem rA rb rg mi d m).2.read1 rg =
      (gauss_seidel_method_mem rA rb rg mi d m).2.read1 m.a1.length ∧
    (gauss_seidel_method_mem rA rb rg mi d m).1.2 =
      ((gauss_seidel_method_mem rA rb rg mi d m).2.read1 rg).map
        (around ((d : ℤ) - 1)) := by
  have hne : rg ≠ m.a1.length := by omega
  simp only [gauss_seidel_method_mem]
  have hH := gsGoMem_holds rA rb m.a1.length rg ((m.read1 rb).length)
    (threshold d) ((d : ℤ) - 1) hne (mi - 1) 0
    ((m.alloc1 (List.replicate (m.read1 rb).length 0)).1)
    (by rw [Mem.a1_length_alloc1]; omega)
    (by rw [Mem.a1_length_alloc1]; omega)
    (by rw [Mem.read1_alloc1 _ _ _ hrg]; exact hlen)
    (by rw [Mem.read1_alloc1_self]; exact List.length_replicate _ _)
  exact ⟨hH.1, by rw [hH.2, hH.1]⟩

/-- Claim C4: `gaussian_elimination` operates on private copies and never
mutates the caller's `A` or `b`; `jacobi_method` never mutates the caller's
`initial_guess`; `gauss_seidel_method` writes each newly computed component
into the caller's `initial_guess` in place, so on return that array holds
the final (unrounded) iterate, of which the returned solution is the
rounding. -/
theorem array_mutation_behavior :
    (∀ (m : Mem) (rA rb : ℕ), rA < m.a2.length → rb < m.a1.length →
      (gaussian_elimination_mem rA rb m).2.read2 rA = m.read2 rA ∧
      (gaussian_elimination_mem rA rb m).2.read1 rb = m.read1 rb) ∧
    (∀ (m : Mem) (rA rb rg mi d : ℕ), rg < m.a1.length →
      (jacobi_method_mem rA rb rg mi d m).2.read1 rg = m.read1 rg) ∧
    (∀ (m : Mem) (rA rb rg mi d : ℕ), rg < m.a1.length →
      (m.read1 rg).length = (m.read1 rb).length →
      (gauss_seidel_method_mem rA rb rg mi d m).2.read1 rg =
        (gauss_seidel_method_mem rA rb rg mi d m).2.read1 m.a1.length ∧
      (gauss_seidel_method_mem rA rb rg mi d m).1.2 =
        ((gauss_seidel_method_mem rA rb rg mi d m).2.read1 rg).map
          (around ((d : ℤ) - 1))) :=
  ⟨fun m rA rb hA hb => gaussian_elimination_mem_frame m rA rb hA hb,
   fun m rA rb rg mi d hrg => jacobi_method_mem_frame m rA rb rg mi d hrg,
   fun m rA rb rg mi d hrg hlen =>
     gauss_seidel_method_mem_inplace m rA rb rg mi d hrg hlen⟩

/-- Witness for C4 on a concrete store: `A = [[1]]` at 2-D address 0,
`b = [2]` at 1-D address 0, `initial_guess = [0]` at 1-D address 1. -/
theorem array_mutation_behavior_witness :
    (gaussian_elimination_mem 0 0 (Mem.mk [[2], [0]] [[[1]]])).2.read2 0 =
      (Mem.mk [[2], [0]] [[[1]]]).read2 0 ∧
    (jacobi_method_mem 0 0 1 3 6 (Mem.mk [[2], [0]] [[[1]]])).2.read1 1 =
      (Mem.mk [[2], [0]] [[[1]]]).read1 1 ∧
    (gauss_seidel_method_mem 0 0 1 3 6 (Mem.mk [[2], [0]] [[[1]]])).1.2 =
      ((gauss_seidel_method_mem 0 0 1 3 6 (Mem.mk [[2], [0]] [[[1]]])).2.read1 1).map
        (around ((6 : ℤ) - 1)) := by
  refine ⟨(array_mutation_behavior.1 _ 0 0 (by norm_num) (by norm_num)).1,
    array_mutation_behavior.2.1 _ 0 0 1 3 6 (by norm_num),
    (array_mutation_behavior.2.2 _ 0 0 1 3 6 (by norm_num) ?_).2⟩
  norm_num [Mem.read1]

theorem swapRowsIf_lowZero (n k : ℕ) (A : ℕ → ℕ → ℚ) (b : ℕ → ℚ)
    (hk : k + 1 < n) (h : LowZero A n k) :
    LowZero (swapRowsIf n k A b).1 n k := by
  intro r c hc hcr hrn
  unfold swapRowsIf
  by_cases hz : A k k = 0
  · simp only [if_pos hz]
    have hcn : c < n := by omega
    rw [if_pos hcn]
    by_cases hrk : r = k
    · rw [if_pos hrk]
      exact h (k + 1) c hc (by omega) hk
    · rw [if_neg hrk]
      by_cases hrk1 : r = k + 1
      · rw [if_pos hrk1]
        exact h k c hc (by omega) (by omega)
      · rw [if_neg hrk1]
        exact h r c hc hcr hrn
  · simp only [if_neg hz]
    exact h r c hc hcr hrn

theorem swapRowsIf_solves (n k : ℕ) (A : ℕ → ℕ → ℚ) (b : ℕ → ℚ)
    (hk : k + 1 < n) (x : ℕ → ℚ) :
    SolvesFn (swapRowsIf n k A b).1 (swapRowsIf n k A b).2 n x ↔
      SolvesFn A b n x := by
  by_cases hz : A k k = 0
  · have hA1 : ∀ c < n, (swapRowsIf n k A b).1 k c = A (k + 1) c := by
      intro c hc
      simp [swapRowsIf, hz, hc]
    have hA2 : ∀ c < n, (swapRowsIf n k A b).1 (k + 1) c = A k c := by
      intro c hc
      simp [swapRowsIf, hz, hc]
    have hA3 : ∀ r, r ≠ k → r ≠ k + 1 → ∀ c < n, (swapRowsIf n k A b).1 r c = A r c := by
      intro r h1 h2 c hc
      simp [swapRowsIf, hz, hc, h1, h2]
    have hb1 : (swapRowsIf n k A b).2 k = b (k + 1) := by simp [swapRowsIf, hz]
    have hb2 : (swapRowsIf n k A b).2 (k + 1) = b k := by simp [swapRowsIf, hz]
    have hb3 : ∀ r, r ≠ k → r ≠ k + 1 → (swapRowsIf n k A b).2 r = b r := by
      intro r h1 h2
      simp [swapRowsIf, hz, h1, h2]
    constructor
    · intro hs r hr
      by_cases hrk : r = k
      · subst hrk
        have := hs (r + 1) hk
        rw [hb2] at this
        rw [← this]
        refine Finset.sum_congr rfl fun c hc => ?_
        rw [hA2 c (Finset.mem_range.mp hc)]
      · by_cases hrk1 : r = k + 1
        · subst hrk1
          have := hs k (by omega)
          rw [hb1] at this
          rw [← this]
          refine Finset.sum_congr rfl fun c hc => ?_
          rw [hA1 c (Finset.mem_range.mp hc)]
        · have := hs r hr
          rw [hb3 r hrk hrk1] at this
          rw [← this]
          refine Finset.sum_congr rfl fun c hc => ?_
          rw [hA3 r hrk hrk1 c (Finset.mem_range.mp hc)]
    · intro hs r hr
      by_cases hrk : r = k
      · subst hrk
        rw [hb1]
        rw [← hs (r + 1) hk]
        refine Finset.sum_congr rfl fun c hc => ?_
        rw [hA1 c (Finset.mem_range.mp hc)]
      · by_cases hrk1 : r = k + 1
        · subst hrk1
          rw [hb2]
          rw [← hs k (by omega)]
          refine Finset.sum_congr rfl fun c hc => ?_
          rw [hA2 c (Finset.mem_range.mp hc)]
        · rw [hb3 r hrk hrk1]
          rw [← hs r hr]
          refine Finset.sum_congr rfl fun c hc => ?_
          rw [hA3 r hrk hrk1 c (Finset.mem_range.mp hc)]
  · have e : swapRowsIf n k A b = (A, b) := by simp [swapRowsIf, hz]
    rw [e]

theorem elimRows_lowZero (n k : ℕ) (A : ℕ → ℕ → ℚ) (b : ℕ → ℚ) (hk : k < n)
    (h : LowZero A n k) : LowZero (elimRows n k A b).1 n (k + 1) := by
  intro r c hc hcr hrn
  simp only [elimRows]
  by_cases hck : c < k
  · have : ¬(k + 1 ≤ r ∧ r < n ∧ A r k ≠ 0 ∧ k ≤ c ∧ c < n) := by
      rintro ⟨-, -, -, hkc, -⟩
      omega
    rw [if_neg this]
    exact h r c hck hcr hrn
  · have hck' : c = k := by omega
    subst hck'
    by_cases hz : A r c = 0
    · have : ¬(c + 1 ≤ r ∧ r < n ∧ A r c ≠ 0 ∧ c ≤ c ∧ c < n) := by
        rintro ⟨-, -, hz', -, -⟩
        exact hz' hz
      rw [if_neg this]
      exact hz
    · rw [if_pos ⟨by omega, hrn, hz, le_rfl, by omega⟩]
      rw [div_mul_cancel₀ _ hz]
      ring

theorem elimRows_row_k (n k : ℕ) (A : ℕ → ℕ → ℚ) (b : ℕ → ℚ) :
    (∀ c, (elimRows n k A b).1 k c = A k c) ∧ (elimRows n k A b).2 k = b k := by
  constructor
  · intro c
    simp only [elimRows]
    rw [if_neg]
    rintro ⟨hle, -⟩
    omega
  · simp only [elimRows]
    rw [if_neg]
    rintro ⟨hle, -⟩
    omega

theorem elimRows_modified_sum (n k : ℕ) (A : ℕ → ℕ → ℚ) (b : ℕ → ℚ)
    (hlz : LowZero A n k) (hkn : k < n) (r : ℕ) (hr1 : k + 1 ≤ r) (hr2 : r < n)
    (hz : A r k ≠ 0) (x : ℕ → ℚ) :
    ((Finset.range n).sum fun c => (elimRows n k A b).1 r c * x c) =
      ((Finset.range n).sum fun c => A k c * x c) -
        A k k / A r k * (Finset.range n).sum fun c => A r c * x c := by
  rw [Finset.mul_sum, ← Finset.sum_sub_distrib]
  refine Finset.sum_congr rfl fun c hc => ?_
  have hcn : c < n := Finset.mem_range.mp hc
  simp only [elimRows]
  by_cases hck : k ≤ c
  · rw [if_pos ⟨hr1, hr2, hz, hck, hcn⟩]
    ring
  · push_neg at hck
    have h1 : A r c = 0 := hlz r c hck (by omega) hr2
    have h2 : A k c = 0 := hlz k c hck hck hkn
    rw [if_neg (by rintro ⟨-, -, -, hkc, -⟩; omega), h1, h2]
    ring

theorem elimRows_solves (n k : ℕ) (A : ℕ → ℕ → ℚ) (b : ℕ → ℚ) (hkn : k < n)
    (hlz : LowZero A n k) (hpiv : A k k ≠ 0) (x : ℕ → ℚ) :
    SolvesFn (elimRows n k A b).1 (elimRows n k A b).2 n x ↔
      SolvesFn A b n x := by
  have hrowk' : ((Finset.range n).sum fun c => (elimRows n k A b).1 k c * x c) =
      (Finset.range n).sum fun c => A k c * x c :=
    Finset.sum_congr rfl fun c _ => by rw [(elimRows_row_k n k A b).1 c]
  constructor
  · intro hs r hr
    by_cases hmod : k + 1 ≤ r ∧ A r k ≠ 0
    · have hk0 := hs k hkn
      rw [(elimRows_row_k n k A b).2, hrowk'] at hk0
      have hre := hs r hr
      rw [elimRows_modified_sum n k A b hlz hkn r hmod.1 hr hmod.2 x, hk0] at hre
      have hbe : (elimRows n k A b).2 r = b k - A k k / A r k * b r := by
        simp only [elimRows]
        rw [if_pos ⟨hmod.1, hr, hmod.2⟩]
      rw [hbe] at hre
      have hf : A k k / A r k ≠ 0 := div_ne_zero hpiv hmod.2
      refine mul_left_cancel₀ hf ?_
      linarith
    · have hA : ∀ c, (elimRows n k A b).1 r c = A r c := fun c => by
        simp only [elimRows]
        rw [if_neg (by rintro ⟨h1, -, h3, -⟩; exact hmod ⟨h1, h3⟩)]
      have hB : (elimRows n k A b).2 r = b r := by
        simp only [elimRows]
        rw [if_neg (by rintro ⟨h1, -, h3⟩; exact hmod ⟨h1, h3⟩)]
      have hre := hs r hr
      rw [hB] at hre
      rw [← hre]
      exact (Finset.sum_congr rfl fun c _ => by rw [hA c]).symm
  · intro hs r hr
    by_cases hmod : k + 1 ≤ r ∧ A r k ≠ 0
    · rw [elimRows_modified_sum n k A b hlz hkn r hmod.1 hr hmod.2 x]
      have hbe : (elimRows n k A b).2 r = b k - A k k / A r k * b r := by
        simp only [elimRows]
        rw [if_pos ⟨hmod.1, hr, hmod.2⟩]
      rw [hbe, hs k hkn, hs r hr]
    · have hA : ∀ c, (elimRows n k A b).1 r c = A r c := fun c => by
        simp only [elimRows]
        rw [if_neg (by rintro ⟨h1, -, h3, -⟩; exact hmod ⟨h1, h3⟩)]
      have hB : (elimRows n k A b).2 r = b r := by
        simp only [elimRows]
        rw [if_neg (by rintro ⟨h1, -, h3⟩; exact hmod ⟨h1, h3⟩)]
      rw [hB, ← hs r hr]
      exact Finset.sum_congr rfl fun c _ => by rw [hA c]

theorem elimIter_succ (n : ℕ) (Ab : (ℕ → ℕ → ℚ) × (ℕ → ℚ)) (k : ℕ) :
    elimIter n Ab (k + 1) = elimStep n k (elimIter n Ab k) := by
  simp [elimIter, List.range_succ]

theorem elimIter_lowZero (n : ℕ) (Ab : (ℕ → ℕ → ℚ) × (ℕ → ℚ)) :
    ∀ k, k ≤ n - 1 → LowZero (elimIter n Ab k).1 n k := by
  intro k
  induction k with
  | zero => exact fun _ r c hc _ _ => absurd hc (by omega)
  | succ j ih =>
    intro hj
    have hn : j + 1 < n := by omega
    have hlz := ih (by omega)
    rw [elimIter_succ]
    simp only [elimStep]
    exact elimRows_lowZero n j _ _ (by omega)
      (swapRowsIf_lowZero n j (elimIter n Ab j).1 (elimIter n Ab j).2 hn hlz)

theorem elimIter_solves (n : ℕ) (Ab : (ℕ → ℕ → ℚ) × (ℕ → ℚ))
    (hpiv : ∀ j < n - 1,
      (swapRowsIf n j (elimIter n Ab j).1 (elimIter n Ab j).2).1 j j ≠ 0) :
    ∀ k, k ≤ n - 1 → ∀ x : ℕ → ℚ,
      (SolvesFn (elimIter n Ab k).1 (elimIter n Ab k).2 n x ↔
        SolvesFn Ab.1 Ab.2 n x) := by
  intro k
  induction k with
  | zero => exact fun _ x => Iff.rfl
  | succ j ih =>
    intro hj x
    have hn : j + 1 < n := by omega
    have hlz := elimIter_lowZero n Ab j (by omega)
    have hswlz := swapRowsIf_lowZero n j (elimIter n Ab j).1 (elimIter n Ab j).2 hn hlz
    rw [elimIter_succ]
    simp only [elimStep]
    rw [elimRows_solves n j _ _ (by omega) hswlz (hpiv j (by omega)) x]
    rw [swapRowsIf_solves n j (elimIter n Ab j).1 (elimIter n Ab j).2 hn x]
    exact ih (by omega) x

theorem backSubF_fuel (A : ℕ → ℕ → ℚ) (b : ℕ → ℚ) (n : ℕ) :
    ∀ (f1 f2 row : ℕ), row < n → n - row ≤ f1 → n - row ≤ f2 →
      backSubF A b n f1 row = backSubF A b n f2 row := by
  intro f1
  induction f1 with
  | zero => intro f2 row h1 h2 _; omega
  | succ g ih =>
    intro f2 row hrow h1 h2
    match f2 with
    | 0 => omega
    | g2 + 1 =>
      simp only [backSubF]
      congr 2
      refine Finset.sum_congr rfl fun c hc => ?_
      have hc' := Finset.mem_Ico.mp hc
      rw [ih g2 c (by omega) (by omega) (by omega)]

theorem backSub_solves (U : ℕ → ℕ → ℚ) (bf : ℕ → ℚ) (n : ℕ)
    (hdiag : ∀ r < n, U r r ≠ 0) (hupper : ∀ r c, c < r → r < n → U r c = 0) :
    ∀ r < n, ((Finset.range n).sum fun c => U r c * backSubF U bf n (n - c) c) =
      bf r := by
  intro r hr
  have hsplit : ((Finset.range n).sum fun c => U r c * backSubF U bf n (n - c) c) =
      ((Finset.Ico 0 r).sum fun c => U r c * backSubF U bf n (n - c) c) +
        (Finset.Ico r n).sum fun c => U r c * backSubF U bf n (n - c) c := by
    rw [Finset.range_eq_Ico,
      Finset.sum_Ico_consecutive _ (Nat.zero_le r) (le_of_lt hr)]
  rw [hsplit]
  have hzero : ((Finset.Ico 0 r).sum fun c => U r c * backSubF U bf n (n - c) c) = 0 := by
    apply Finset.sum_eq_zero
    intro c hc
    rw [hupper r c (Finset.mem_Ico.mp hc).2 hr, zero_mul]
  rw [hzero, zero_add, Finset.sum_eq_sum_Ico_succ_bot hr]
  obtain ⟨g, hg⟩ : ∃ g, n - r = g + 1 := ⟨n - r - 1, by omega⟩
  rw [hg]
  simp only [backSubF]
  rw [mul_div_cancel₀ _ (hdiag r hr)]
  have hsum : ((Finset.Ico (r + 1) n).sum fun c => U r c * backSubF U bf n g c) =
      (Finset.Ico (r + 1) n).sum fun c => U r c * backSubF U bf n (n - c) c := by
    refine Finset.sum_congr rfl fun c hc => ?_
    have hc' := Finset.mem_Ico.mp hc
    rw [backSubF_fuel U bf n g (n - c) c (by omega) (by omega) (by omega)]
  rw [hsum]
  ring

/-- Claim C1 as amended: for every system `A, b` (with `n = len(b)`) such
that at every elimination step the pivot `A[k,k]` obtained after the
adjacent-swap attempt is nonzero, and every diagonal entry used during back
substitution is nonzero, `gaussian_elimination(A, b)` returns `x` with
`A·x = b` exactly (in the exact rational arithmetic of the embedding;
within floating-point tolerance in the float original). -/
theorem gaussian_elimination_solves (A : List (List ℚ)) (b : List ℚ)
    (hpiv : ∀ k < b.length - 1,
      (swapRowsIf b.length k
        (elimIter b.length (fun i j => matEntry A i j, fun i => b.getD i 0) k).1
        (elimIter b.length (fun i j => matEntry A i j, fun i => b.getD i 0) k).2).1
          k k ≠ 0)
    (hdiag : ∀ r < b.length,
      (elimLoop b.length (fun i j => matEntry A i j, fun i => b.getD i 0)).1 r r ≠ 0) :
    ∀ r < b.length,
      rowMul A (gaussian_elimination A b) b.length r = b.getD r 0 := by
  intro r hr
  have hupper : ∀ r' c, c < r' → r' < b.length →
      (elimLoop b.length (fun i j => matEntry A i j, fun i => b.getD i 0)).1 r' c = 0 := by
    intro r' c hcr hrn
    exact elimIter_lowZero b.length
      (fun i j => matEntry A i j, fun i => b.getD i 0) (b.length - 1) le_rfl
      r' c (by omega) hcr hrn
  have hsolF : SolvesFn
      (elimLoop b.length (fun i j => matEntry A i j, fun i => b.getD i 0)).1
      (elimLoop b.length (fun i j => matEntry A i j, fun i => b.getD i 0)).2
      b.length
      (fun c => backSubF
        (elimLoop b.length (fun i j => matEntry A i j, fun i => b.getD i 0)).1
        (elimLoop b.length (fun i j => matEntry A i j, fun i => b.getD i 0)).2
        b.length (b.length - c) c) :=
    fun r' hr' => backSub_solves _ _ b.length hdiag hupper r' hr'
  have htrans : SolvesFn (fun i j => matEntry A i j) (fun i => b.getD i 0)
      b.length
      (fun c => backSubF
        (elimLoop b.length (fun i j => matEntry A i j, fun i => b.getD i 0)).1
        (elimLoop b.length (fun i j => matEntry A i j, fun i => b.getD i 0)).2
        b.length (b.length - c) c) :=
    (elimIter_solves b.length (fun i j => matEntry A i j, fun i => b.getD i 0)
      hpiv (b.length - 1) le_rfl _).mp hsolF
  have hx : ∀ c, c < b.length → (gaussian_elimination A b).getD c 0 =
      backSubF
        (elimLoop b.length (fun i j => matEntry A i j, fun i => b.getD i 0)).1
        (elimLoop b.length (fun i j => matEntry A i j, fun i => b.getD i 0)).2
        b.length (b.length - c) c := by
    intro c hc
    simp only [gaussian_elimination]
    rw [List.getD_eq_getElem _ 0 (by simpa using hc)]
    simp
  have hrow := htrans r hr
  rw [rowMul]
  refine Eq.trans ?_ hrow
  refine Finset.sum_congr rfl fun c hcmem => ?_
  rw [hx c (Finset.mem_range.mp hcmem)]

/-- Counterexample to claim C1 as stated: the permutation matrix
`A = [[0,0,1],[0,1,0],[1,0,0]]` is nonsingular (it is its own inverse), but
the adjacent-swap strategy leaves a zero pivot, the elimination factor
degenerates to `0/1 = 0`, and with `b = [1,2,3]` the returned vector fails
`A·x = b` on row 2 (the float original produces `nan` there, `0` in the
exact embedding). -/
theorem gaussian_elimination_nonsingular_fails :
    Nonsingular [[0, 0, 1], [0, 1, 0], [1, 0, 0]] 3 ∧
    ¬(∀ r < 3, rowMul [[0, 0, 1], [0, 1, 0], [1, 0, 0]]
        (gaussian_elimination [[0, 0, 1], [0, 1, 0], [1, 0, 0]] [1, 2, 3]) 3 r =
      ([1, 2, 3] : List ℚ).getD r 0) := by
  constructor
  · refine ⟨[[0, 0, 1], [0, 1, 0], [1, 0, 0]], ?_, ?_⟩ <;>
    · intro i hi j hj
      interval_cases i <;> interval_cases j <;>
        norm_num [matEntry, Finset.sum_range_succ]
  · intro hall
    have h2 := hall 2 (by omega)
    revert h2
    norm_num [rowMul, matEntry, Finset.sum_range_succ, gaussian_elimination,
      elimLoop, elimStep, swapRowsIf, elimRows, backSubF, List.range_succ,
      Finset.sum_Ico_eq_sum_range]

/-- Witness for the amended C1 on `A = [[2,1],[1,3]]`, `b = [3,4]`: all
pivots are nonzero and the first residual row checks out. -/
theorem gaussian_elimination_solves_witness :
    rowMul [[2, 1], [1, 3]] (gaussian_elimination [[2, 1], [1, 3]] [3, 4]) 2 0 = 3 := by
  have h := gaussian_elimination_solves [[2, 1], [1, 3]] [3, 4]
    (by
      intro k hk
      norm_num at hk
      have hk0 : k = 0 := by omega
      subst hk0
      norm_num [elimIter, swapRowsIf, matEntry])
    (by
      intro r hr
      norm_num at hr
      interval_cases r <;>
        norm_num [elimLoop, elimIter, elimStep, swapRowsIf, elimRows, matEntry,
          List.range_succ])
    0 (by norm_num)
  norm_num at h
  exact h

theorem newtonDD_telescope (xl yl : List ℚ) (k : ℕ) (hk : k ≤ xl.length - 1)
    (hdist : ∀ i j, i < j → j ≤ xl.length - 1 → xl.getD i 0 ≠ xl.getD j 0) :
    ∀ j ≤ k,
      yl.getD k 0 =
        ((Finset.range j).sum fun i =>
          newtonDD xl yl i i * x_product (xl.getD k 0) xl i) +
          newtonDD xl yl k j * x_product (xl.getD k 0) xl j := by
  intro j
  induction j with
  | zero =>
    intro _
    simp [newtonDD, x_product]
  | succ jj ih =>
    intro hj
    have hne : xl.getD k 0 - xl.getD jj 0 ≠ 0 :=
      sub_ne_zero.mpr (Ne.symm (hdist jj k (by omega) hk))
    have hih := ih (by omega)
    rw [Finset.sum_range_succ]
    have hD : newtonDD xl yl k (jj + 1) =
        (newtonDD xl yl k jj - newtonDD xl yl jj jj) /
          (xl.getD k 0 - xl.getD jj 0) := rfl
    have hP : x_product (xl.getD k 0) xl (jj + 1) =
        x_product (xl.getD k 0) xl jj * (xl.getD k 0 - xl.getD jj 0) :=
      Finset.prod_range_succ _ _
    rw [hD, hP, hih]
    rw [div_mul_eq_mul_div, mul_div_assoc, mul_div_cancel_right₀ _ hne]
    ring

theorem newton_method_node (xl yl : List ℚ)
    (hdist : ∀ i j, i < j → j ≤ xl.length - 1 → xl.getD i 0 ≠ xl.getD j 0)
    (k : ℕ) (hk : k ≤ xl.length - 1) :
    newton_method (xl.getD k 0) xl yl = yl.getD k 0 := by
  unfold newton_method
  rw [Finset.range_eq_Ico, ← Finset.sum_Ico_consecutive _
    (Nat.zero_le (k + 1)) (by omega : k + 1 ≤ xl.length - 1 + 1)]
  have h2 : ((Finset.Ico (k + 1) (xl.length - 1 + 1)).sum fun i =>
      newtonDD xl yl i i * x_product (xl.getD k 0) xl i) = 0 := by
    apply Finset.sum_eq_zero
    intro i hi
    have hik : k < i := (Finset.mem_Ico.mp hi).1
    have : x_product (xl.getD k 0) xl i = 0 := by
      apply Finset.prod_eq_zero (Finset.mem_range.mpr hik)
      ring
    rw [this, mul_zero]
  rw [h2, add_zero, ← Finset.range_eq_Ico, Finset.sum_range_succ]
  exact (newtonDD_telescope xl yl k hk hdist k le_rfl).symm

theorem lagrange_method_node (xl yl : List ℚ)
    (hdist : ∀ i j, i < j → j ≤ xl.length - 1 → xl.getD i 0 ≠ xl.getD j 0)
    (k : ℕ) (hk : k ≤ xl.length - 1) :
    lagrange_method (xl.getD k 0) xl yl = yl.getD k 0 := by
  unfold lagrange_method
  rw [Finset.sum_eq_single k]
  · have h1 : lagrangeL xl (xl.getD k 0) k = 1 := by
      unfold lagrangeL
      apply Finset.prod_eq_one
      intro j hj
      by_cases hkj : k ≠ j
      · rw [if_pos hkj]
        have hne : xl.getD k 0 - xl.getD j 0 ≠ 0 := by
          rcases Nat.lt_or_ge j k with hlt | hge
          · exact sub_ne_zero.mpr (Ne.symm (hdist j k hlt hk))
          · have hjk : k < j := by omega
            exact sub_ne_zero.mpr
              (hdist k j hjk (by simpa using Nat.lt_succ_iff.mp (Finset.mem_range.mp hj)))
        exact div_self hne
      · rw [if_neg hkj]
    rw [h1, mul_one]
  · intro i hi hik
    have h0 : lagrangeL xl (xl.getD k 0) i = 0 := by
      unfold lagrangeL
      apply Finset.prod_eq_zero (Finset.mem_range.mpr (Nat.lt_succ_of_le hk))
      rw [if_pos hik]
      simp
    rw [h0, mul_zero]
  · intro hk'
    exact absurd (Finset.mem_range.mpr (Nat.lt_succ_of_le hk)) hk'

theorem newton_method_eval_poly (xp : ℚ) (xl yl : List ℚ) :
    newton_method xp xl yl = Polynomial.eval xp
      ((Finset.range (xl.length - 1 + 1)).sum fun i =>
        Polynomial.C (newtonDD xl yl i i) *
          (Finset.range i).prod fun j => Polynomial.X - Polynomial.C (xl.getD j 0)) := by
  unfold newton_method x_product
  rw [Polynomial.eval_finset_sum]
  refine Finset.sum_congr rfl fun i _ => ?_
  rw [Polynomial.eval_mul, Polynomial.eval_C, Polynomial.eval_prod]
  congr 1
  refine Finset.prod_congr rfl fun j _ => ?_
  rw [Polynomial.eval_sub, Polynomial.eval_X, Polynomial.eval_C]

theorem lagrange_method_eval_poly (xp : ℚ) (xl yl : List ℚ) :
    lagrange_method xp xl yl = Polynomial.eval xp
      ((Finset.range (xl.length - 1 + 1)).sum fun i =>
        Polynomial.C (yl.getD i 0) *
          (Finset.range (xl.length - 1 + 1)).prod fun j =>
            if i ≠ j then
              Polynomial.C (xl.getD i 0 - xl.getD j 0)⁻¹ *
                (Polynomial.X - Polynomial.C (xl.getD j 0))
            else 1) := by
  unfold lagrange_method lagrangeL
  rw [Polynomial.eval_finset_sum]
  refine Finset.sum_congr rfl fun i _ => ?_
  rw [Polynomial.eval_mul, Polynomial.eval_C, Polynomial.eval_prod]
  congr 1
  refine Finset.prod_congr rfl fun j _ => ?_
  by_cases hij : i ≠ j
  · rw [if_pos hij, if_pos hij, Polynomial.eval_mul, Polynomial.eval_C,
      Polynomial.eval_sub, Polynomial.eval_X, Polynomial.eval_C]
    rw [div_eq_mul_inv, mul_comm]
  · rw [if_neg hij, if_neg hij, Polynomial.eval_one]

theorem newton_poly_natDegree (xl yl : List ℚ) :
    ((Finset.range (xl.length - 1 + 1)).sum fun i =>
      Polynomial.C (newtonDD xl yl i i) *
        (Finset.range i).prod fun j =>
          Polynomial.X - Polynomial.C (xl.getD j 0)).natDegree ≤ xl.length - 1 := by
  apply Polynomial.natDegree_sum_le_of_forall_le
  intro i hi
  refine le_trans (Polynomial.natDegree_C_mul_le _ _) ?_
  refine le_trans (Polynomial.natDegree_prod_le _ _) ?_
  refine le_trans (Finset.sum_le_sum fun j hj =>
    le_of_eq (Polynomial.natDegree_X_sub_C (xl.getD j 0))) ?_
  rw [Finset.sum_const, Finset.card_range, smul_eq_mul, mul_one]
  exact Nat.lt_succ_iff.mp (Finset.mem_range.mp hi)

theorem lagrange_poly_natDegree (xl yl : List ℚ) :
    ((Finset.range (xl.length - 1 + 1)).sum fun i =>
      Polynomial.C (yl.getD i 0) *
        (Finset.range (xl.length - 1 + 1)).prod fun j =>
          if i ≠ j then
            Polynomial.C (xl.getD i 0 - xl.getD j 0)⁻¹ *
              (Polynomial.X - Polynomial.C (xl.getD j 0))
          else 1).natDegree ≤ xl.length - 1 := by
  apply Polynomial.natDegree_sum_le_of_forall_le
  intro i hi
  refine le_trans (Polynomial.natDegree_C_mul_le _ _) ?_
  refine le_trans (Polynomial.natDegree_prod_le _ _) ?_
  have hbound : ∀ j ∈ Finset.range (xl.length - 1 + 1),
      (if i ≠ j then
        Polynomial.C (xl.getD i 0 - xl.getD j 0)⁻¹ *
          (Polynomial.X - Polynomial.C (xl.getD j 0))
      else 1).natDegree ≤ if j = i then 0 else 1 := by
    intro j hj
    by_cases hij : i ≠ j
    · rw [if_pos hij, if_neg (Ne.symm hij)]
      exact le_trans (Polynomial.natDegree_C_mul_le _ _)
        (le_of_eq (Polynomial.natDegree_X_sub_C _))
    · rw [if_neg hij, if_pos (by push_neg at hij; omega)]
      simp
  refine le_trans (Finset.sum_le_sum hbound) ?_
  have he : ((Finset.range (xl.length - 1 + 1)).erase i).sum
      (fun j => if j = i then (0:ℕ) else 1) =
      (Finset.range (xl.length - 1 + 1)).sum (fun j => if j = i then (0:ℕ) else 1) :=
    Finset.sum_erase _ (by simp)
  rw [← he]
  have hc : ((Finset.range (xl.length - 1 + 1)).erase i).sum
      (fun j => if j = i then (0:ℕ) else 1) =
      ((Finset.range (xl.length - 1 + 1)).erase i).sum (fun _ => (1:ℕ)) :=
    Finset.sum_congr rfl (fun j hj => if_neg (Finset.ne_of_mem_erase hj))
  rw [hc, Finset.sum_const, smul_eq_mul, mul_one,
    Finset.card_erase_of_mem hi, Finset.card_range]
  omega

/-- C8: for every list of sample points whose x values are pairwise distinct
(on the indices `0..len(xlist)-1` that both routines read) and every query
point `xp`, `newton_method(xp, xlist, ylist)` and
`lagrange_method(xp, xlist, ylist)` produce identical values: the
divided-difference and Lagrange constructions agree exactly in exact
arithmetic, both being the unique interpolating polynomial of degree at most
`len(xlist) - 1` through the sample points. -/
theorem newton_eq_lagrange (xp : ℚ) (xl yl : List ℚ)
    (hdist : ∀ i j, i < j → j ≤ xl.length - 1 → xl.getD i 0 ≠ xl.getD j 0) :
    newton_method xp xl yl = lagrange_method xp xl yl := by
  rw [newton_method_eval_poly, lagrange_method_eval_poly]
  congr 1
  rw [← sub_eq_zero]
  apply Polynomial.eq_zero_of_natDegree_lt_card_of_eval_eq_zero' _
    ((Finset.range (xl.length - 1 + 1)).image fun k => xl.getD k 0)
  · intro z hz
    obtain ⟨k, hk, rfl⟩ := Finset.mem_image.mp hz
    have hkN : k ≤ xl.length - 1 := Nat.lt_succ_iff.mp (Finset.mem_range.mp hk)
    rw [Polynomial.eval_sub, ← newton_method_eval_poly, ← lagrange_method_eval_poly,
      newton_method_node xl yl hdist k hkN, lagrange_method_node xl yl hdist k hkN,
      sub_self]
  · have hcard : ((Finset.range (xl.length - 1 + 1)).image fun k => xl.getD k 0).card =
        xl.length - 1 + 1 := by
      rw [Finset.card_image_of_injOn, Finset.card_range]
      intro a ha b hb hab
      by_contra hne
      rcases Nat.lt_or_ge a b with h | h
      · exact hdist a b h (Nat.lt_succ_iff.mp (Finset.mem_range.mp hb)) hab
      · exact hdist b a (by omega) (Nat.lt_succ_iff.mp (Finset.mem_range.mp ha)) hab.symm
    rw [hcard]
    refine lt_of_le_of_lt (le_trans (Polynomial.natDegree_sub_le _ _) ?_)
      (Nat.lt_succ_self (xl.length - 1))
    exact max_le (newton_poly_natDegree xl yl) (lagrange_poly_natDegree xl yl)

theorem newton_eq_lagrange_witness :
    (∀ i j, i < j → j ≤ ([0, 1, 3] : List ℚ).length - 1 →
      ([0, 1, 3] : List ℚ).getD i 0 ≠ ([0, 1, 3] : List ℚ).getD j 0) ∧
    newton_method 5 [0, 1, 3] [2, 4, 8] = lagrange_method 5 [0, 1, 3] [2, 4, 8] := by
  have hd : ∀ i j, i < j → j ≤ ([0, 1, 3] : List ℚ).length - 1 →
      ([0, 1, 3] : List ℚ).getD i 0 ≠ ([0, 1, 3] : List ℚ).getD j 0 := by
    intro i j hij hj
    simp only [List.length_cons, List.length_nil] at hj
    interval_cases j <;> interval_cases i <;> norm_num [List.getD]
  exact ⟨hd, newton_eq_lagrange 5 [0, 1, 3] [2, 4, 8] hd⟩

end NumericalMethods
